import Mathlib

/-! Boolean query lexer (`src/booleanParser/Lexer.cpp`) and `Cast::boolean` (`src/cast.cc`)

A shallow embedding of `Lexer::NextToken`, `Lexer::IsStringOperator`,
`Lexer::IsSymbolOp` and `Cast::boolean`, followed by the properties established
about them.

Characters are Lean `Char`s, `std::string` is `List Char`, the `while (true)`
loop of `NextToken` is a fuel-indexed iteration of its body, and a thrown
exception is a value of `Result`.
-/

namespace BooleanParser

/-! ## Character constants (the `#define`s of Lexer.cpp and the literals it uses) -/

/-- The character `'\0'`, the end-of-input symbol. -/
@[reducible] def NUL : Char := Char.ofNat 0
/-- `#define DOUBLEQUOTE '"'`. -/
@[reducible] def DOUBLEQUOTE : Char := Char.ofNat 34
/-- `#define SINGLEQUOTE '\''`. -/
@[reducible] def SINGLEQUOTE : Char := Char.ofNat 39
/-- `#define LEFT_SQUARE_BRACKET '['`. -/
@[reducible] def LEFT_SQUARE_BRACKET : Char := '['
/-- `#define RIGHT_SQUARE_BRACKET ']'`. -/
@[reducible] def RIGHT_SQUARE_BRACKET : Char := ']'
/-- The character literal written `'\\'` in the source. -/
@[reducible] def BACKSLASH : Char := Char.ofNat 92
/-- The character literal written `'\n'` in the source. -/
@[reducible] def LF : Char := Char.ofNat 10
/-- The character literal written `'\t'` in the source. -/
@[reducible] def TAB : Char := Char.ofNat 9
/-- The character literal written `'\r'` in the source. -/
@[reducible] def CR : Char := Char.ofNat 13

/-- `#define AND "AND"`. -/
def AND : List Char := ['A', 'N', 'D']
/-- `#define OR "OR"`. -/
def OR : List Char := ['O', 'R']
/-- `#define NOT "NOT"`. -/
def NOT : List Char := ['N', 'O', 'T']
/-- `#define XOR "XOR"`. -/
def XOR : List Char := ['X', 'O', 'R']

/-! ## Data model -/

/-- Modelled from the spec: the enumeration `TokenType` is declared in a header
that is not among the sources; these are the eight variants the spec lists,
under the names Lexer.cpp uses for them. -/
inductive TokenType where
  | Id
  | And
  | Or
  | Not
  | Xor
  | LeftParenthesis
  | RightParenthesis
  | EndOfFile
  deriving DecidableEq, Repr

/-- Modelled from the spec: `Token` is declared in a header that is not among
the sources; it carries the two fields Lexer.cpp reads and writes. -/
structure Token where
  lexeme : List Char
  type : TokenType
  deriving DecidableEq, Repr

/-- Modelled from the spec: the value of the local `Token token;` before any
assignment. The lexeme of a default-constructed `std::string` is empty; the
type field is represented by `Id` and is only ever observable if the switch of
the `SYMBOL_OP` case matches none of its labels. -/
def Token.fresh : Token := ⟨[], TokenType.Id⟩

/-- The states of `enum class LexerState` that `NextToken` switches over. -/
inductive LexerState where
  | INIT
  | TOKEN
  | TOKEN_QUOTE
  | ESCAPE
  | INIT_SQUARE_BRACKET
  | END_SQUARE_BRACKET
  | SYMBOL_OP
  | EOFILE
  deriving DecidableEq, Repr

/-- Modelled from the spec: `ContentReader` is not among the sources. It is the
list of characters not yet handed out; `NextSymbol` hands out the next one, and
`'\0'` once the buffer is exhausted, however often it is called. -/
abbrev ContentReader := List Char

/-- Modelled from the spec: `ContentReader::NextSymbol`, returning the symbol
and the reader after the call. -/
def ContentReader.NextSymbol (r : ContentReader) : Char × ContentReader :=
  match r with
  | [] => (NUL, [])
  | c :: cs => (c, cs)

/-- The fields of a `Lexer` object: its reader and the buffered symbol. -/
structure Lexer where
  contentReader : ContentReader
  currentSymbol : Char
  deriving DecidableEq, Repr

/-- The constructor `Lexer::Lexer(char * input)`: wrap the input in a reader and
pull the first symbol. -/
def Lexer.new (input : List Char) : Lexer :=
  let p := ContentReader.NextSymbol input
  { contentReader := p.2, currentSymbol := p.1 }

/-- The statement `currentSymbol = contentReader.NextSymbol();`. -/
def Lexer.advance (lx : Lexer) : Lexer :=
  let p := ContentReader.NextSymbol lx.contentReader
  { contentReader := p.2, currentSymbol := p.1 }

/-- The exceptions `NextToken` can leave with: `LexicalException` with its
message, and the `std::out_of_range` of `std::string::at`. -/
inductive Exception where
  | LexicalException (msg : String)
  | out_of_range
  deriving DecidableEq, Repr

/-- How a call ends: a token and the lexer after the call, an exception, or
the iteration budget of the model ran out before the loop was left. -/
inductive Result where
  | returned (token : Token) (lexer : Lexer)
  | raised (e : Exception)
  | outOfFuel
  deriving DecidableEq, Repr

/-- The local variables of `NextToken` that live across loop iterations. -/
structure Locals where
  lexeme : List Char
  currentState : LexerState
  upState : LexerState
  quote : Char
  deriving DecidableEq, Repr

/-- The locals at loop entry: `lexeme = ""`, `currentState = INIT`,
`upState = currentState`; `quote` is declared without a value and is written
before every read (it is represented by `'\0'`). -/
def Locals.init : Locals :=
  { lexeme := [], currentState := LexerState.INIT, upState := LexerState.INIT, quote := NUL }

/-! ## `IsSymbolOp` and `IsStringOperator` -/

/-- `Lexer::IsSymbolOp`. -/
def IsSymbolOp (c : Char) : Bool :=
  if c = '(' then true
  else if c = ')' then true
  else if c = '&' then true
  else if c = '|' then true
  else if c = '~' then true
  else false

/-- The C library `tolower` in the C locale: only `A`..`Z` are changed. -/
def tolower (c : Char) : Char :=
  if 65 ≤ c.toNat ∧ c.toNat ≤ 90 then Char.ofNat (c.toNat + 32) else c

/-- The C library `strcasecmp` on two character buffers, each read up to its
first `'\0'` (the end of the list stands for the terminating `'\0'`): the
difference of the first pair of case-folded characters that differ, 0 if none. -/
def strcasecmp : List Char → List Char → Int
  | [], [] => 0
  | [], b :: _ => 0 - ((tolower b).toNat : Int)
  | a :: _, [] => ((tolower a).toNat : Int)
  | a :: as, b :: bs =>
    if tolower a ≠ tolower b then ((tolower a).toNat : Int) - ((tolower b).toNat : Int)
    else if a = NUL then 0
    else strcasecmp as bs

/-- `Lexer::IsStringOperator`, returning the token it leaves behind. -/
def IsStringOperator (token : Token) : Token :=
  match token.lexeme with
  | [] => token
  | c :: _ =>
    if c = 'a' ∨ c = 'A' then
      if strcasecmp token.lexeme AND = 0 then { token with type := TokenType.And } else token
    else if c = 'o' ∨ c = 'O' then
      if strcasecmp token.lexeme OR = 0 then { token with type := TokenType.Or } else token
    else if c = 'n' ∨ c = 'N' then
      if strcasecmp token.lexeme NOT = 0 then { token with type := TokenType.Not } else token
    else if c = 'x' ∨ c = 'X' then
      if strcasecmp token.lexeme XOR = 0 then { token with type := TokenType.Xor } else token
    else token

/-! ## `NextToken` -/

/-- What one pass through the body of `while (true)` does: go round again with
new lexer fields and locals, or leave the function. -/
inductive Step where
  | next (lexer : Lexer) (v : Locals)
  | done (r : Result)
  deriving DecidableEq, Repr

/-- The statements `lexeme += currentSymbol.symbol; currentState = s;
currentSymbol = contentReader.NextSymbol();` shared by most transitions. -/
def appendTo (lx : Lexer) (v : Locals) (s : LexerState) : Step :=
  Step.next lx.advance { v with lexeme := v.lexeme ++ [lx.currentSymbol], currentState := s }

/-- The body of `case LexerState::END_SQUARE_BRACKET`, also reached by falling
through from `INIT_SQUARE_BRACKET`. -/
def endSquareBracket (lx : Lexer) (v : Locals) : Step :=
  let c := lx.currentSymbol
  if c = RIGHT_SQUARE_BRACKET then appendTo lx v LexerState.TOKEN
  else if c = ',' then appendTo lx v LexerState.INIT_SQUARE_BRACKET
  else Step.done (Result.raised (Exception.LexicalException "Symbol ] expected"))

/-- The switch of `case LexerState::SYMBOL_OP` over `lexeme.at(0)`. -/
def symbolOpType (c : Char) : TokenType :=
  if c = '(' then TokenType.LeftParenthesis
  else if c = ')' then TokenType.RightParenthesis
  else if c = '&' then TokenType.And
  else if c = '|' then TokenType.Or
  else if c = '~' then TokenType.Not
  else Token.fresh.type

/-- One iteration of the loop of `Lexer::NextToken`. -/
def iteration (lx : Lexer) (v : Locals) : Step :=
  let c := lx.currentSymbol
  match v.currentState with
  | LexerState.INIT =>
    if c = LEFT_SQUARE_BRACKET then appendTo lx v LexerState.INIT_SQUARE_BRACKET
    else if c = SINGLEQUOTE then
      appendTo lx { v with quote := SINGLEQUOTE } LexerState.TOKEN_QUOTE
    else if c = DOUBLEQUOTE then
      appendTo lx { v with quote := DOUBLEQUOTE } LexerState.TOKEN_QUOTE
    else if c = NUL then Step.next lx { v with currentState := LexerState.EOFILE }
    else if c = ' ' ∨ c = LF ∨ c = TAB ∨ c = CR then
      Step.next lx.advance { v with currentState := LexerState.INIT }
    else if c = '(' ∨ c = ')' ∨ c = '&' ∨ c = '|' ∨ c = '~' then
      appendTo lx v LexerState.SYMBOL_OP
    else if (v.lexeme ++ [c]).length ≥ 1024 then
      Step.done (Result.raised (Exception.LexicalException
        ("Symbol " ++ String.singleton c ++ " not expected")))
    else appendTo lx v LexerState.TOKEN
  | LexerState.TOKEN =>
    if c = DOUBLEQUOTE then
      appendTo lx { v with quote := DOUBLEQUOTE } LexerState.TOKEN_QUOTE
    else if c = SINGLEQUOTE then
      appendTo lx { v with quote := SINGLEQUOTE } LexerState.TOKEN_QUOTE
    else if ¬ IsSymbolOp c = true ∧ c ≠ ' ' ∧ c ≠ NUL then appendTo lx v LexerState.TOKEN
    else Step.done (Result.returned (IsStringOperator ⟨v.lexeme, TokenType.Id⟩) lx)
  | LexerState.TOKEN_QUOTE =>
    if c = BACKSLASH then appendTo lx v LexerState.ESCAPE
    else if c = NUL then
      Step.done (Result.raised (Exception.LexicalException "Symbol double quote expected"))
    else if c = v.quote then
      appendTo lx v (if v.upState = LexerState.INIT_SQUARE_BRACKET
        then LexerState.END_SQUARE_BRACKET else LexerState.TOKEN)
    else appendTo lx v v.currentState
  | LexerState.ESCAPE =>
    if c = NUL then
      Step.done (Result.raised (Exception.LexicalException "Symbol EOF not expected"))
    else appendTo lx v LexerState.TOKEN_QUOTE
  | LexerState.INIT_SQUARE_BRACKET =>
    if c = DOUBLEQUOTE then
      appendTo lx { v with upState := LexerState.INIT_SQUARE_BRACKET, quote := DOUBLEQUOTE }
        LexerState.TOKEN_QUOTE
    else if c = SINGLEQUOTE then
      appendTo lx { v with upState := LexerState.INIT_SQUARE_BRACKET, quote := SINGLEQUOTE }
        LexerState.TOKEN_QUOTE
    else if c ≠ RIGHT_SQUARE_BRACKET ∧ c ≠ NUL then appendTo lx v v.currentState
    else endSquareBracket lx v
  | LexerState.END_SQUARE_BRACKET => endSquareBracket lx v
  | LexerState.SYMBOL_OP =>
    match v.lexeme with
    | [] => Step.done (Result.raised Exception.out_of_range)
    | c0 :: _ => Step.done (Result.returned ⟨v.lexeme, symbolOpType c0⟩ lx)
  | LexerState.EOFILE =>
    Step.done (Result.returned { Token.fresh with type := TokenType.EndOfFile } lx)

/-- The loop `while (true) { ... }` of `NextToken`, run for at most `fuel`
iterations. -/
def loop : Nat → Lexer → Locals → Result
  | 0, _, _ => Result.outOfFuel
  | fuel + 1, lx, v =>
    match iteration lx v with
    | Step.next lx1 v1 => loop fuel lx1 v1
    | Step.done r => r

/-- `Lexer::NextToken`: the loop entered with fresh locals. The budget is three
more than the number of characters still in the reader, which the loop never
uses up (every iteration that goes round again pulls a symbol, except the one
that enters `EOFILE`). -/
def NextToken (lx : Lexer) : Result :=
  loop (lx.contentReader.length + 3) lx Locals.init

/-- What a run of consecutive calls produced: the tokens in the order
returned together with the lexer left behind, or the tokens returned before a
call raised together with its exception. -/
inductive Trace where
  | tokens (ts : List Token) (lexer : Lexer)
  | raised (ts : List Token) (e : Exception)
  | outOfFuel
  deriving DecidableEq, Repr

/-- Put a token returned earlier in front of what the later calls produced. -/
def Trace.cons (t : Token) : Trace → Trace
  | Trace.tokens ts lx => Trace.tokens (t :: ts) lx
  | Trace.raised ts e => Trace.raised (t :: ts) e
  | Trace.outOfFuel => Trace.outOfFuel

/-- Calling `NextToken` `n` times in a row on the same lexer, stopping at the
first call that raises. -/
def NextTokens : Nat → Lexer → Trace
  | 0, lx => Trace.tokens [] lx
  | n + 1, lx =>
    match NextToken lx with
    | Result.returned t lx1 => Trace.cons t (NextTokens n lx1)
    | Result.raised e => Trace.raised [] e
    | Result.outOfFuel => Trace.outOfFuel

/-- Characters with which the `INIT` state starts a bare word: none of the
labels of its two switches. -/
def startChar (c : Char) : Prop :=
  c ≠ LEFT_SQUARE_BRACKET ∧ c ≠ SINGLEQUOTE ∧ c ≠ DOUBLEQUOTE ∧ c ≠ NUL ∧
  c ≠ ' ' ∧ c ≠ LF ∧ c ≠ TAB ∧ c ≠ CR ∧ IsSymbolOp c = false

instance : DecidablePred startChar := fun c => by unfold startChar; infer_instance

/-- Characters the `TOKEN` state appends to the lexeme without leaving the
state. -/
def wordChar (c : Char) : Prop :=
  c ≠ DOUBLEQUOTE ∧ c ≠ SINGLEQUOTE ∧ IsSymbolOp c = false ∧ c ≠ ' ' ∧ c ≠ NUL

instance : DecidablePred wordChar := fun c => by unfold wordChar; infer_instance

/-- Characters the `TOKEN_QUOTE` state appends without leaving the state while
`q` is the remembered quote. -/
def quotedChar (q c : Char) : Prop :=
  c ≠ q ∧ c ≠ BACKSLASH ∧ c ≠ NUL

instance (q : Char) : DecidablePred (quotedChar q) := fun c => by
  unfold quotedChar; infer_instance

/-- Characters the `INIT_SQUARE_BRACKET` state appends without leaving the
state. -/
def listChar (c : Char) : Prop :=
  c ≠ DOUBLEQUOTE ∧ c ≠ SINGLEQUOTE ∧ c ≠ RIGHT_SQUARE_BRACKET ∧ c ≠ NUL

instance : DecidablePred listChar := fun c => by unfold listChar; infer_instance

/-- The token every call returns at the end of the input. -/
def Token.eof : Token := { Token.fresh with type := TokenType.EndOfFile }

/-- What holds of the lexer fields and the locals at the head of every
iteration: the lexeme is empty in `INIT`, it is one operator symbol in
`SYMBOL_OP`, and the buffered symbol is `'\0'` in `EOFILE`. -/
def loopInv (lx : Lexer) (v : Locals) : Prop :=
  (v.currentState = LexerState.INIT → v.lexeme = []) ∧
  (v.currentState = LexerState.SYMBOL_OP → ∃ c, v.lexeme = [c] ∧ IsSymbolOp c = true) ∧
  (v.currentState = LexerState.EOFILE → lx.currentSymbol = NUL)

/-- The characters the `INIT` state discards. -/
def spaceChar (c : Char) : Prop :=
  c = ' ' ∨ c = LF ∨ c = TAB ∨ c = CR

instance : DecidablePred spaceChar := fun c => by unfold spaceChar; infer_instance

/-- The number of symbols other than `'\0'` the lexer can still hand to the
loop: the buffered one, if it is not `'\0'`, and what the reader holds. -/
def Lexer.pending (lx : Lexer) : Nat :=
  lx.contentReader.length + (if lx.currentSymbol = NUL then 0 else 1)

/-- Running the loop body `k` times without leaving the function: the lexer
fields and locals at the head of the next iteration, if every one of the `k`
iterations went round again. -/
def iterations : Nat → Lexer → Locals → Option (Lexer × Locals)
  | 0, lx, v => some (lx, v)
  | k + 1, lx, v =>
    match iteration lx v with
    | Step.next lx1 v1 => iterations k lx1 v1
    | Step.done _ => none

/-- What holds of the lexeme at the head of every iteration: it has no `'\0'`,
and it is not empty in the bare-word state. -/
def lexemeInv (v : Locals) : Prop :=
  NUL ∉ v.lexeme ∧ (v.currentState = LexerState.TOKEN → v.lexeme ≠ [])

/-- The three ways a token leaves `NextToken`: a completed bare word handed to
`IsStringOperator`, one operator symbol, or the end of the input. -/
def returnShape (t : Token) : Prop :=
  (∃ lex, lex ≠ [] ∧ NUL ∉ lex ∧ t = IsStringOperator ⟨lex, TokenType.Id⟩) ∨
  (∃ c, IsSymbolOp c = true ∧ t = ⟨[c], symbolOpType c⟩) ∨
  t = Token.eof

/-- The tokens a run of calls returned, whether or not it ended in an
exception. -/
def Trace.returned : Trace → List Token
  | Trace.tokens ts _ => ts
  | Trace.raised ts _ => ts
  | Trace.outOfFuel => []

/-- The number of tokens of a type other than EndOfFile among those a run of
calls returned. -/
def Trace.properTokens (tr : Trace) : Nat :=
  (tr.returned.filter (fun t => decide (t.type ≠ TokenType.EndOfFile))).length

/-- The lexer fields as they are when the input has no `'\0'`: the reader
holds none, and `'\0'` is buffered only once the reader is exhausted. -/
def Lexer.nulFree (lx : Lexer) : Prop :=
  NUL ∉ lx.contentReader ∧ (lx.currentSymbol = NUL → lx.contentReader = [])

/-- The part of the input the loop has not consumed yet: the buffered symbol
and what the reader holds, or nothing once `'\0'` is buffered. -/
def Lexer.unread (lx : Lexer) : List Char :=
  if lx.currentSymbol = NUL then [] else lx.currentSymbol :: lx.contentReader

/-- The text `a` is made of the lexemes `ls`, in this order, each preceded by a
run of whitespace characters, and then `b`: `a = w₁ l₁ w₂ l₂ … wₙ lₙ b`. -/
def Segments : List (List Char) → List Char → List Char → Prop
  | [], a, b => a = b
  | l :: ls, a, b =>
    ∃ ws mid, (∀ c ∈ ws, spaceChar c) ∧ a = ws ++ l ++ mid ∧ Segments ls mid b

/-- What holds of the lexeme when the loop is in `EOFILE`. -/
def eofInv (v : Locals) : Prop :=
  v.currentState = LexerState.EOFILE → v.lexeme = []

end BooleanParser

/-! ## `Cast::boolean` (`src/cast.cc`) -/

namespace Cast

open BooleanParser

/-- The exception `CastError` with the message `THROW` formats for it. -/
structure CastError where
  msg : String
  deriving DecidableEq, Repr

/-- Modelled from the spec: `MsgPack` is declared in a header that is not among
the sources. The constructors are the cases of `MsgPack::Type` that `cast.cc`
switches over, each with the value its accessor (`u64()`, `i64()`, `f64()`,
`str()`, `boolean()`) returns, and one constructor for every other type, with
the name `getStrType()` returns for it. -/
inductive MsgPack where
  | POSITIVE_INTEGER (u64 : Nat)
  | NEGATIVE_INTEGER (i64 : Int)
  | FLOAT (f64 : Float)
  | STR (str : List Char)
  | BOOLEAN (boolean : Bool)
  | OTHER (strType : String)

/-- The expression `value[i]` on the buffer `c_str()` returns: the character at
index `i`, and `'\0'` at the end of the string. -/
def charAt (value : List Char) (i : Nat) : Char :=
  value.getD i NUL

/-- The string literal `"false"` of `Cast::boolean`. -/
def FALSE : List Char := ['f', 'a', 'l', 's', 'e']

/-- `Cast::boolean`. -/
def boolean (obj : MsgPack) : Except CastError Bool :=
  match obj with
  | MsgPack.POSITIVE_INTEGER u64 => Except.ok (u64 != 0)
  | MsgPack.NEGATIVE_INTEGER i64 => Except.ok (i64 != 0)
  | MsgPack.FLOAT f64 => Except.ok (f64 != 0)
  | MsgPack.STR value =>
    if charAt value 0 = NUL then Except.ok false
    else if charAt value 0 = '0' ∨ charAt value 0 = 'f' ∨ charAt value 0 = 'F' then
      if charAt value 1 = NUL ∨ strcasecmp value FALSE = 0 then Except.ok false
      else Except.ok true
    else Except.ok true
  | MsgPack.BOOLEAN b => Except.ok b
  | MsgPack.OTHER strType =>
    Except.error ⟨"Type " ++ strType ++ " cannot be cast to boolean"⟩

end Cast

namespace BooleanParser

/-! ## Basic facts about the loop and the lexer fields -/

theorem loop_succ (n : Nat) (lx : Lexer) (v : Locals) :
    loop (n + 1) lx v = match iteration lx v with
      | Step.next lx1 v1 => loop n lx1 v1
      | Step.done r => r := rfl

/-- More fuel does not change a result that was reached. -/
theorem loop_mono (n : Nat) : ∀ (lx : Lexer) (v : Locals) (r : Result) (k : Nat),
    loop n lx v = r → r ≠ Result.outOfFuel → loop (n + k) lx v = r := by
  induction n with
  | zero => intro lx v r k h hr; exact absurd h.symm hr
  | succ n ih =>
    intro lx v r k h hr
    have e : n + 1 + k = (n + k) + 1 := by omega
    rw [e, loop_succ]
    rw [loop_succ] at h
    cases hs : iteration lx v with
    | next lx1 v1 => rw [hs] at h; exact ih lx1 v1 r k h hr
    | done r1 => rw [hs] at h; exact h

theorem loop_of_le {n m : Nat} {lx : Lexer} {v : Locals} {r : Result}
    (h : loop n lx v = r) (hr : r ≠ Result.outOfFuel) (hle : n ≤ m) : loop m lx v = r := by
  obtain ⟨k, rfl⟩ := Nat.exists_eq_add_of_le hle
  exact loop_mono n lx v r k h hr

@[simp] theorem new_cons (c : Char) (r : List Char) : Lexer.new (c :: r) = ⟨r, c⟩ := rfl

@[simp] theorem new_nil : Lexer.new [] = ⟨[], NUL⟩ := rfl

@[simp] theorem advance_eq (r : List Char) (c : Char) :
    Lexer.advance ⟨r, c⟩ = Lexer.new r := rfl

theorem isSymbolOp_false {c : Char} (h : IsSymbolOp c = false) :
    c ≠ '(' ∧ c ≠ ')' ∧ c ≠ '&' ∧ c ≠ '|' ∧ c ≠ '~' := by
  unfold IsSymbolOp at h
  refine ⟨?_, ?_, ?_, ?_, ?_⟩ <;> intro hc <;> simp [hc] at h

/-- In a state where every character satisfying `P` is appended without a
change of state, a run of such characters is consumed whole. -/
theorem loop_accumulate (P : Char → Prop) (st up : LexerState) (q : Char)
    (hP : ∀ (c : Char) (r lex : List Char), P c →
      iteration ⟨r, c⟩ ⟨lex, st, up, q⟩ = Step.next (Lexer.new r) ⟨lex ++ [c], st, up, q⟩)
    (s : List Char) : ∀ (lex r : List Char) (n : Nat), (∀ c ∈ s, P c) →
      loop (n + s.length) (Lexer.new (s ++ r)) ⟨lex, st, up, q⟩
        = loop n (Lexer.new r) ⟨lex ++ s, st, up, q⟩ := by
  induction s with
  | nil => intro lex r n _; simp
  | cons c s ih =>
    intro lex r n h
    have e : n + (c :: s).length = (n + s.length) + 1 := by simp; omega
    rw [e, loop_succ]
    simp only [List.cons_append, new_cons]
    rw [hP c (s ++ r) lex (h c (List.mem_cons_self _ _))]
    simp only
    rw [ih (lex ++ [c]) r n (fun x hx => h x (List.mem_cons_of_mem _ hx))]
    simp

theorem iteration_init_start (c : Char) (r : List Char) (up : LexerState) (q : Char)
    (h : startChar c) :
    iteration ⟨r, c⟩ ⟨[], LexerState.INIT, up, q⟩
      = Step.next (Lexer.new r) ⟨[c], LexerState.TOKEN, up, q⟩ := by
  obtain ⟨h1, h2, h3, h4, h5, h6, h7, h8, h9⟩ := h
  obtain ⟨g1, g2, g3, g4, g5⟩ := isSymbolOp_false h9
  simp [iteration, appendTo, h1, h2, h3, h4, h5, h6, h7, h8, g1, g2, g3, g4, g5]

theorem iteration_token_word (c : Char) (r lex : List Char) (up : LexerState) (q : Char)
    (h : wordChar c) :
    iteration ⟨r, c⟩ ⟨lex, LexerState.TOKEN, up, q⟩
      = Step.next (Lexer.new r) ⟨lex ++ [c], LexerState.TOKEN, up, q⟩ := by
  obtain ⟨h1, h2, h3, h4, h5⟩ := h
  simp [iteration, appendTo, h1, h2, h3, h4, h5]

theorem loop_token_word (s : List Char) (lex r : List Char) (up : LexerState) (q : Char)
    (n : Nat) (h : ∀ c ∈ s, wordChar c) :
    loop (n + s.length) (Lexer.new (s ++ r)) ⟨lex, LexerState.TOKEN, up, q⟩
      = loop n (Lexer.new r) ⟨lex ++ s, LexerState.TOKEN, up, q⟩ :=
  loop_accumulate wordChar LexerState.TOKEN up q
    (fun c r lex hc => iteration_token_word c r lex up q hc) s lex r n h

/-! ## The sample expression -/

/-- C1: nine consecutive calls of `NextToken` on the input `(a AND b) OR ~c`
return, in this order, LeftParenthesis, Identifier `a`, And, Identifier `b`,
RightParenthesis, Or, Not, Identifier `c` and EndOfFile, and none of the calls
raises. -/
theorem C1_sample_expression_tokens :
    NextTokens 9 (Lexer.new "(a AND b) OR ~c".toList)
      = Trace.tokens
          [⟨['('], TokenType.LeftParenthesis⟩, ⟨['a'], TokenType.Id⟩,
           ⟨['A', 'N', 'D'], TokenType.And⟩, ⟨['b'], TokenType.Id⟩,
           ⟨[')'], TokenType.RightParenthesis⟩, ⟨['O', 'R'], TokenType.Or⟩,
           ⟨['~'], TokenType.Not⟩, ⟨['c'], TokenType.Id⟩, ⟨[], TokenType.EndOfFile⟩]
          ⟨[], NUL⟩ := by
  decide

/-! ## Whitespace inside a bare word -/

/-- C2: the inputs `a AND b` and `a  AND  b` (two spaces) both give
Identifier `a`, And, Identifier `b`, EndOfFile; but on the input a TAB AND LF b
the first call returns one Identifier whose lexeme is all seven characters and
the second call returns EndOfFile: the `TOKEN` state ends a bare word at a
space but not at a tab, CR or LF, although the `INIT` state skips all four. -/
theorem C2_tab_and_newline_do_not_separate :
    NextTokens 4 (Lexer.new ['a', ' ', 'A', 'N', 'D', ' ', 'b'])
      = Trace.tokens
          [⟨['a'], TokenType.Id⟩, ⟨['A', 'N', 'D'], TokenType.And⟩, ⟨['b'], TokenType.Id⟩,
           ⟨[], TokenType.EndOfFile⟩]
          ⟨[], NUL⟩ ∧
    NextTokens 4 (Lexer.new ['a', ' ', ' ', 'A', 'N', 'D', ' ', ' ', 'b'])
      = Trace.tokens
          [⟨['a'], TokenType.Id⟩, ⟨['A', 'N', 'D'], TokenType.And⟩, ⟨['b'], TokenType.Id⟩,
           ⟨[], TokenType.EndOfFile⟩]
          ⟨[], NUL⟩ ∧
    NextTokens 2 (Lexer.new ['a', TAB, 'A', 'N', 'D', LF, 'b'])
      = Trace.tokens
          [⟨['a', TAB, 'A', 'N', 'D', LF, 'b'], TokenType.Id⟩, ⟨[], TokenType.EndOfFile⟩]
          ⟨[], NUL⟩ := by
  decide

/-! ## The length guard -/

/-- C3: on an input of 1025 copies of `z` the first call raises nothing and
returns an Identifier whose lexeme has all 1025 characters: the length guard
sits in the `INIT` state, where the lexeme has one character, and the `TOKEN`
state appends without one. -/
theorem C3_long_bare_word_is_returned :
    NextToken (Lexer.new (List.replicate 1025 'z'))
      = Result.returned ⟨List.replicate 1025 'z', TokenType.Id⟩ ⟨[], NUL⟩ := by
  have hw : ∀ c ∈ List.replicate 1024 'z', wordChar c := by
    intro c hc
    rw [List.eq_of_mem_replicate hc]
    decide
  have h := loop_token_word (List.replicate 1024 'z') ['z'] [] LexerState.INIT NUL 2 hw
  have e : List.replicate 1025 'z' = 'z' :: List.replicate 1024 'z' := rfl
  rw [e]
  unfold NextToken
  simp only [new_cons, List.length_replicate]
  rw [loop_succ]
  simp only [List.append_nil, List.length_replicate] at h
  have h0 : iteration ⟨List.replicate 1024 'z', 'z'⟩ Locals.init
      = Step.next (Lexer.new (List.replicate 1024 'z'))
          ⟨['z'], LexerState.TOKEN, LexerState.INIT, NUL⟩ :=
    iteration_init_start 'z' _ _ _ (by decide)
  rw [h0]
  simp only
  rw [Nat.add_comm] at h
  rw [h]
  rfl

/-! ## Keyword classification -/

theorem char_eq_of_toNat {a b : Char} (h : a.toNat = b.toNat) : a = b := by
  rw [← Char.ofNat_toNat a, ← Char.ofNat_toNat b, h]

theorem tolower_toNat (c : Char) :
    (tolower c).toNat = if 65 ≤ c.toNat ∧ c.toNat ≤ 90 then c.toNat + 32 else c.toNat := by
  unfold tolower
  split
  · rename_i h
    obtain ⟨h1, h2⟩ := h
    generalize c.toNat = n at h1 h2
    interval_cases n <;> rfl
  · rfl

theorem tolower_ne_nul {c : Char} (h : c ≠ NUL) : (tolower c).toNat ≠ 0 := by
  rw [tolower_toNat]
  split
  · omega
  · intro h0
    exact h (char_eq_of_toNat h0)

/-- On buffers without `'\0'`, `strcasecmp` returns 0 exactly when the two
buffers are equal after case folding. -/
theorem strcasecmp_eq_zero_iff (a : List Char) : ∀ (b : List Char), NUL ∉ a → NUL ∉ b →
    (strcasecmp a b = 0 ↔ a.map tolower = b.map tolower) := by
  induction a with
  | nil =>
    intro b _ hb
    cases b with
    | nil => simp [strcasecmp]
    | cons y ys =>
      have hy : y ≠ NUL := fun e => hb (e ▸ List.mem_cons_self _ _)
      have := tolower_ne_nul hy
      simp [strcasecmp]
      omega
  | cons x xs ih =>
    intro b ha hb
    have hx : x ≠ NUL := fun e => ha (e ▸ List.mem_cons_self _ _)
    cases b with
    | nil =>
      have := tolower_ne_nul hx
      simp [strcasecmp]
      omega
    | cons y ys =>
      have hxs : NUL ∉ xs := fun h => ha (List.mem_cons_of_mem _ h)
      have hys : NUL ∉ ys := fun h => hb (List.mem_cons_of_mem _ h)
      by_cases hxy : tolower x = tolower y
      · simp [strcasecmp, hxy, hx, ih ys hxs hys]
      · have hn : (tolower x).toNat ≠ (tolower y).toNat := fun e => hxy (char_eq_of_toNat e)
        simp [strcasecmp, hxy]
        omega

theorem eq_of_tolower_eq {c l : Char} (h : tolower c = l) :
    c = l ∨ (c.toNat + 32 = l.toNat) := by
  have h1 := tolower_toNat c
  rw [h] at h1
  split at h1
  · right; exact h1.symm
  · left; exact char_eq_of_toNat h1.symm

/-- A character folds to a lower-case letter only if it is that letter or its
upper-case form. -/
theorem eq_or_upper {c l u : Char} (hu : u.toNat + 32 = l.toNat) (h : tolower c = l) :
    c = l ∨ c = u := by
  rcases eq_of_tolower_eq h with h1 | h1
  · exact Or.inl h1
  · right; apply char_eq_of_toNat; omega

theorem fold_head {c d : Char} {cs ds : List Char}
    (h : (c :: cs).map tolower = (d :: ds).map tolower) : tolower c = tolower d := by
  simp only [List.map_cons, List.cons.injEq] at h
  exact h.1

theorem isStringOperator_lexeme (t : Token) : (IsStringOperator t).lexeme = t.lexeme := by
  unfold IsStringOperator
  split
  · rfl
  · split_ifs <;> rfl

theorem isStringOperator_type (lexeme : List Char) (h : NUL ∉ lexeme) :
    (IsStringOperator ⟨lexeme, TokenType.Id⟩).type =
      if lexeme.map tolower = AND.map tolower then TokenType.And
      else if lexeme.map tolower = OR.map tolower then TokenType.Or
      else if lexeme.map tolower = NOT.map tolower then TokenType.Not
      else if lexeme.map tolower = XOR.map tolower then TokenType.Xor
      else TokenType.Id := by
  have hA := strcasecmp_eq_zero_iff lexeme AND h (by decide)
  have hO := strcasecmp_eq_zero_iff lexeme OR h (by decide)
  have hN := strcasecmp_eq_zero_iff lexeme NOT h (by decide)
  have hX := strcasecmp_eq_zero_iff lexeme XOR h (by decide)
  cases lexeme with
  | nil => simp [IsStringOperator, AND, OR, NOT, XOR]
  | cons c cs =>
    have fA : (c :: cs).map tolower = AND.map tolower → c = 'a' ∨ c = 'A' :=
      fun e => eq_or_upper (l := 'a') (by decide) (fold_head e)
    have fO : (c :: cs).map tolower = OR.map tolower → c = 'o' ∨ c = 'O' :=
      fun e => eq_or_upper (l := 'o') (by decide) (fold_head e)
    have fN : (c :: cs).map tolower = NOT.map tolower → c = 'n' ∨ c = 'N' :=
      fun e => eq_or_upper (l := 'n') (by decide) (fold_head e)
    have fX : (c :: cs).map tolower = XOR.map tolower → c = 'x' ∨ c = 'X' :=
      fun e => eq_or_upper (l := 'x') (by decide) (fold_head e)
    unfold IsStringOperator
    simp only [hA, hO, hN, hX]
    by_cases cA : c = 'a' ∨ c = 'A'
    · have nO : ¬ (c :: cs).map tolower = OR.map tolower := by
        intro e; rcases cA with rfl | rfl <;> exact absurd (fold_head e) (by decide)
      have nN : ¬ (c :: cs).map tolower = NOT.map tolower := by
        intro e; rcases cA with rfl | rfl <;> exact absurd (fold_head e) (by decide)
      have nX : ¬ (c :: cs).map tolower = XOR.map tolower := by
        intro e; rcases cA with rfl | rfl <;> exact absurd (fold_head e) (by decide)
      simp only [cA, nO, nN, nX, if_true, if_false]
      split_ifs <;> rfl
    · have nA : ¬ (c :: cs).map tolower = AND.map tolower := fun e => cA (fA e)
      by_cases cO : c = 'o' ∨ c = 'O'
      · have nN : ¬ (c :: cs).map tolower = NOT.map tolower := by
          intro e; rcases cO with rfl | rfl <;> exact absurd (fold_head e) (by decide)
        have nX : ¬ (c :: cs).map tolower = XOR.map tolower := by
          intro e; rcases cO with rfl | rfl <;> exact absurd (fold_head e) (by decide)
        simp only [cA, cO, nA, nN, nX, if_true, if_false]
        split_ifs <;> rfl
      · have nO : ¬ (c :: cs).map tolower = OR.map tolower := fun e => cO (fO e)
        by_cases cN : c = 'n' ∨ c = 'N'
        · have nX : ¬ (c :: cs).map tolower = XOR.map tolower := by
            intro e; rcases cN with rfl | rfl <;> exact absurd (fold_head e) (by decide)
          simp only [cA, cO, cN, nA, nO, nX, if_true, if_false]
          split_ifs <;> rfl
        · have nN : ¬ (c :: cs).map tolower = NOT.map tolower := fun e => cN (fN e)
          by_cases cX : c = 'x' ∨ c = 'X'
          · simp only [cA, cO, cN, cX, nA, nO, nN, if_true, if_false]
            split_ifs <;> rfl
          · have nX : ¬ (c :: cs).map tolower = XOR.map tolower := fun e => cX (fX e)
            simp only [cA, cO, cN, cX, nA, nO, nN, nX, if_false]

/-- C4: for a lexeme without `'\0'` and type Identifier, `IsStringOperator`
keeps the lexeme and sets the type to And, Or, Not or Xor exactly when the
whole lexeme equals `AND`, `OR`, `NOT` or `XOR` after ASCII case folding, and
leaves it Identifier otherwise; and on each of the inputs `and`, `AND`, `And`
and `aNd` the call of `NextToken` returns a token of type And whose lexeme is
the input as written. -/
theorem C4_keyword_classification (lexeme : List Char) (h : NUL ∉ lexeme) :
    (IsStringOperator ⟨lexeme, TokenType.Id⟩).lexeme = lexeme ∧
    (IsStringOperator ⟨lexeme, TokenType.Id⟩).type =
      (if lexeme.map tolower = AND.map tolower then TokenType.And
       else if lexeme.map tolower = OR.map tolower then TokenType.Or
       else if lexeme.map tolower = NOT.map tolower then TokenType.Not
       else if lexeme.map tolower = XOR.map tolower then TokenType.Xor
       else TokenType.Id) ∧
    NextToken (Lexer.new ['a', 'n', 'd'])
      = Result.returned ⟨['a', 'n', 'd'], TokenType.And⟩ ⟨[], NUL⟩ ∧
    NextToken (Lexer.new ['A', 'N', 'D'])
      = Result.returned ⟨['A', 'N', 'D'], TokenType.And⟩ ⟨[], NUL⟩ ∧
    NextToken (Lexer.new ['A', 'n', 'd'])
      = Result.returned ⟨['A', 'n', 'd'], TokenType.And⟩ ⟨[], NUL⟩ ∧
    NextToken (Lexer.new ['a', 'N', 'd'])
      = Result.returned ⟨['a', 'N', 'd'], TokenType.And⟩ ⟨[], NUL⟩ :=
  ⟨isStringOperator_lexeme _, isStringOperator_type lexeme h,
    by decide, by decide, by decide, by decide⟩

/-- C4 at the lexeme `xOr`: it has no `'\0'`, and it is classified Xor with
the lexeme unchanged. -/
theorem C4_keyword_classification_witness :
    NUL ∉ ['x', 'O', 'r'] ∧
    (IsStringOperator ⟨['x', 'O', 'r'], TokenType.Id⟩).lexeme = ['x', 'O', 'r'] ∧
    (IsStringOperator ⟨['x', 'O', 'r'], TokenType.Id⟩).type = TokenType.Xor :=
  ⟨by decide, (C4_keyword_classification ['x', 'O', 'r'] (by decide)).1,
    (C4_keyword_classification ['x', 'O', 'r'] (by decide)).2.1.trans (by decide)⟩

/-! ## Quoted segments and bracket lists -/

theorem iteration_quote_plain (q c : Char) (r lex : List Char) (up : LexerState)
    (h : quotedChar q c) :
    iteration ⟨r, c⟩ ⟨lex, LexerState.TOKEN_QUOTE, up, q⟩
      = Step.next (Lexer.new r) ⟨lex ++ [c], LexerState.TOKEN_QUOTE, up, q⟩ := by
  obtain ⟨h1, h2, h3⟩ := h
  simp [iteration, appendTo, h1, h2, h3]

theorem loop_quote_plain (q : Char) (s lex r : List Char) (up : LexerState) (n : Nat)
    (h : ∀ c ∈ s, quotedChar q c) :
    loop (n + s.length) (Lexer.new (s ++ r)) ⟨lex, LexerState.TOKEN_QUOTE, up, q⟩
      = loop n (Lexer.new r) ⟨lex ++ s, LexerState.TOKEN_QUOTE, up, q⟩ :=
  loop_accumulate (quotedChar q) LexerState.TOKEN_QUOTE up q
    (fun c r lex hc => iteration_quote_plain q c r lex up hc) s lex r n h

theorem iteration_list_plain (c : Char) (r lex : List Char) (up : LexerState) (q : Char)
    (h : listChar c) :
    iteration ⟨r, c⟩ ⟨lex, LexerState.INIT_SQUARE_BRACKET, up, q⟩
      = Step.next (Lexer.new r) ⟨lex ++ [c], LexerState.INIT_SQUARE_BRACKET, up, q⟩ := by
  obtain ⟨h1, h2, h3, h4⟩ := h
  simp [iteration, appendTo, h1, h2, h3, h4]

theorem loop_list_plain (s lex r : List Char) (up : LexerState) (q : Char) (n : Nat)
    (h : ∀ c ∈ s, listChar c) :
    loop (n + s.length) (Lexer.new (s ++ r)) ⟨lex, LexerState.INIT_SQUARE_BRACKET, up, q⟩
      = loop n (Lexer.new r) ⟨lex ++ s, LexerState.INIT_SQUARE_BRACKET, up, q⟩ :=
  loop_accumulate listChar LexerState.INIT_SQUARE_BRACKET up q
    (fun c r lex hc => iteration_list_plain c r lex up q hc) s lex r n h

/-- The first iteration on an opening quote. -/
theorem iteration_init_quote (q : Char) (r : List Char) (hq : q = SINGLEQUOTE ∨ q = DOUBLEQUOTE) :
    iteration ⟨r, q⟩ Locals.init
      = Step.next (Lexer.new r) ⟨[q], LexerState.TOKEN_QUOTE, LexerState.INIT, q⟩ := by
  rcases hq with rfl | rfl <;> rfl

theorem isStringOperator_of_head (c : Char) (cs : List Char) (t : TokenType)
    (h : ¬ (65 ≤ c.toNat ∧ c.toNat ≤ 90) ∧ ¬ (97 ≤ c.toNat ∧ c.toNat ≤ 122)) :
    IsStringOperator ⟨c :: cs, t⟩ = ⟨c :: cs, t⟩ := by
  have n : ∀ d : Char, (65 ≤ d.toNat ∧ d.toNat ≤ 90) ∨ (97 ≤ d.toNat ∧ d.toNat ≤ 122) → c ≠ d := by
    intro d hd e; subst e; tauto
  simp [IsStringOperator, n 'a' (by decide), n 'A' (by decide), n 'o' (by decide),
    n 'O' (by decide), n 'n' (by decide), n 'N' (by decide), n 'x' (by decide), n 'X' (by decide)]

/-- The last iteration of a word: the input is exhausted in state `TOKEN`. -/
theorem loop_token_end (n : Nat) (lex : List Char) (up : LexerState) (q : Char) :
    loop (n + 1) (Lexer.new []) ⟨lex, LexerState.TOKEN, up, q⟩
      = Result.returned (IsStringOperator ⟨lex, TokenType.Id⟩) ⟨[], NUL⟩ := by
  rfl

/-- A quoted segment that closes at the end of the input is one Identifier. -/
theorem nextToken_quoted (q : Char) (s : List Char) (hq : q = SINGLEQUOTE ∨ q = DOUBLEQUOTE)
    (h : ∀ c ∈ s, quotedChar q c) :
    NextToken (Lexer.new (q :: (s ++ [q])))
      = Result.returned ⟨q :: (s ++ [q]), TokenType.Id⟩ ⟨[], NUL⟩ := by
  unfold NextToken
  simp only [new_cons, List.length_append, List.length_singleton]
  rw [loop_succ, iteration_init_quote q _ hq]
  simp only
  have e : s.length + 1 + 2 = 3 + s.length := by omega
  rw [e, loop_quote_plain q s [q] [q] LexerState.INIT 3 h]
  rw [loop_succ]
  have hb : q ≠ BACKSLASH := by rcases hq with rfl | rfl <;> decide
  have hn : q ≠ NUL := by rcases hq with rfl | rfl <;> decide
  have hh : ¬ (65 ≤ q.toNat ∧ q.toNat ≤ 90) ∧ ¬ (97 ≤ q.toNat ∧ q.toNat ≤ 122) := by
    rcases hq with rfl | rfl <;> decide
  simp only [new_cons, iteration, hb, hn, if_true, if_false, appendTo, advance_eq]
  simp only [LexerState.noConfusion, if_false, reduceCtorEq]
  rw [loop_token_end]
  simp only [List.cons_append, List.nil_append, List.append_assoc]
  rw [isStringOperator_of_head q _ _ hh]


/-- A call on a lexer whose buffered symbol is `'\0'` returns the EndOfFile
token and leaves the lexer as it was. -/
theorem nextToken_nul (r : List Char) :
    NextToken ⟨r, NUL⟩ = Result.returned Token.eof ⟨r, NUL⟩ := rfl

/-- Letters of a word that folds to a word of lower-case letters are letters. -/
theorem letter_of_fold (k w : List Char) (hw : ∀ l ∈ w, 97 ≤ l.toNat ∧ l.toNat ≤ 122)
    (h : k.map tolower = w) (c : Char) (hc : c ∈ k) :
    (65 ≤ c.toNat ∧ c.toNat ≤ 90) ∨ (97 ≤ c.toNat ∧ c.toNat ≤ 122) := by
  have hm : tolower c ∈ w := h ▸ List.mem_map_of_mem tolower hc
  have hl := hw _ hm
  rw [tolower_toNat] at hl
  split at hl
  · left; assumption
  · right; exact hl

theorem quotedChar_of_letter (q c : Char) (hq : q = SINGLEQUOTE ∨ q = DOUBLEQUOTE)
    (h : (65 ≤ c.toNat ∧ c.toNat ≤ 90) ∨ (97 ≤ c.toNat ∧ c.toNat ≤ 122)) :
    quotedChar q c := by
  have hq1 : q.toNat = 39 ∨ q.toNat = 34 := by rcases hq with rfl | rfl <;> decide
  refine ⟨?_, ?_, ?_⟩
  · intro e; rw [e] at h; omega
  · intro e; rw [e] at h; revert h; decide
  · intro e; rw [e] at h; revert h; decide

/-- C5: for each quote character and each spelling of a keyword in any letter
case, the input made of the quote, the keyword and the quote again makes
`NextToken` return an Identifier whose lexeme is the whole input, quotes
included. -/
theorem C5_quoted_keyword_is_identifier (q : Char) (k : List Char)
    (hq : q = SINGLEQUOTE ∨ q = DOUBLEQUOTE)
    (hk : k.map tolower = AND.map tolower ∨ k.map tolower = OR.map tolower ∨
      k.map tolower = NOT.map tolower ∨ k.map tolower = XOR.map tolower) :
    NextToken (Lexer.new (q :: (k ++ [q])))
      = Result.returned ⟨q :: (k ++ [q]), TokenType.Id⟩ ⟨[], NUL⟩ := by
  apply nextToken_quoted q k hq
  intro c hc
  apply quotedChar_of_letter q c hq
  rcases hk with h | h | h | h
  · exact letter_of_fold k _ (by decide) h c hc
  · exact letter_of_fold k _ (by decide) h c hc
  · exact letter_of_fold k _ (by decide) h c hc
  · exact letter_of_fold k _ (by decide) h c hc

/-- C5 on the input quote, `AND`, quote (single quotes): an Identifier whose
lexeme keeps the quotes. -/
theorem C5_quoted_keyword_is_identifier_witness :
    NextToken (Lexer.new [SINGLEQUOTE, 'A', 'N', 'D', SINGLEQUOTE])
      = Result.returned ⟨[SINGLEQUOTE, 'A', 'N', 'D', SINGLEQUOTE], TokenType.Id⟩ ⟨[], NUL⟩ :=
  C5_quoted_keyword_is_identifier SINGLEQUOTE ['A', 'N', 'D'] (Or.inl rfl) (Or.inl rfl)

theorem listChar_of_not_mem (s : List Char) (h1 : RIGHT_SQUARE_BRACKET ∉ s)
    (h2 : SINGLEQUOTE ∉ s) (h3 : DOUBLEQUOTE ∉ s) (h4 : NUL ∉ s) : ∀ c ∈ s, listChar c :=
  fun _ hc => ⟨fun e => h3 (e ▸ hc), fun e => h2 (e ▸ hc), fun e => h1 (e ▸ hc),
    fun e => h4 (e ▸ hc)⟩

/-- A bracket list without quotes that closes at the end of the input. -/
theorem nextToken_list (s : List Char) (h : ∀ c ∈ s, listChar c) :
    NextToken (Lexer.new (LEFT_SQUARE_BRACKET :: (s ++ [RIGHT_SQUARE_BRACKET])))
      = Result.returned ⟨LEFT_SQUARE_BRACKET :: (s ++ [RIGHT_SQUARE_BRACKET]), TokenType.Id⟩
          ⟨[], NUL⟩ := by
  unfold NextToken
  simp only [new_cons, List.length_append, List.length_singleton]
  rw [loop_succ]
  have h0 : iteration ⟨s ++ [RIGHT_SQUARE_BRACKET], LEFT_SQUARE_BRACKET⟩ Locals.init
      = Step.next (Lexer.new (s ++ [RIGHT_SQUARE_BRACKET]))
          ⟨[LEFT_SQUARE_BRACKET], LexerState.INIT_SQUARE_BRACKET, LexerState.INIT, NUL⟩ := rfl
  rw [h0]
  simp only
  have e : s.length + 1 + 2 = 3 + s.length := by omega
  rw [e, loop_list_plain s [LEFT_SQUARE_BRACKET] [RIGHT_SQUARE_BRACKET] LexerState.INIT NUL 3 h]
  rw [loop_succ]
  have h1 : iteration (Lexer.new [RIGHT_SQUARE_BRACKET])
      ⟨[LEFT_SQUARE_BRACKET] ++ s, LexerState.INIT_SQUARE_BRACKET, LexerState.INIT, NUL⟩
      = Step.next (Lexer.new [])
          ⟨[LEFT_SQUARE_BRACKET] ++ s ++ [RIGHT_SQUARE_BRACKET], LexerState.TOKEN,
            LexerState.INIT, NUL⟩ := rfl
  rw [h1]
  simp only
  rw [loop_token_end]
  simp only [List.cons_append, List.nil_append, List.append_assoc]
  rw [isStringOperator_of_head LEFT_SQUARE_BRACKET _ _ (by decide)]

/-- C6: for every `s` without `]`, quote character or `'\0'`, the input `[`,
`s`, `]` makes the first call return one Identifier whose lexeme is the whole
input, and the second call return EndOfFile. -/
theorem C6_bracket_list_is_one_token (s : List Char) (h1 : RIGHT_SQUARE_BRACKET ∉ s)
    (h2 : SINGLEQUOTE ∉ s) (h3 : DOUBLEQUOTE ∉ s) (h4 : NUL ∉ s) :
    NextTokens 2 (Lexer.new (LEFT_SQUARE_BRACKET :: (s ++ [RIGHT_SQUARE_BRACKET])))
      = Trace.tokens
          [⟨LEFT_SQUARE_BRACKET :: (s ++ [RIGHT_SQUARE_BRACKET]), TokenType.Id⟩,
           ⟨[], TokenType.EndOfFile⟩]
          ⟨[], NUL⟩ := by
  simp only [NextTokens, nextToken_list s (listChar_of_not_mem s h1 h2 h3 h4), nextToken_nul]
  rfl

/-- C6 on the input `[a,b,c]`: one Identifier with that lexeme, then
EndOfFile. -/
theorem C6_bracket_list_is_one_token_witness :
    NextTokens 2 (Lexer.new ['[', 'a', ',', 'b', ',', 'c', ']'])
      = Trace.tokens [⟨['[', 'a', ',', 'b', ',', 'c', ']'], TokenType.Id⟩,
          ⟨[], TokenType.EndOfFile⟩] ⟨[], NUL⟩ :=
  C6_bracket_list_is_one_token ['a', ',', 'b', ',', 'c'] (by decide) (by decide) (by decide)
    (by decide)

/-! ## Escapes and unterminated constructs -/

/-- C7: in a quoted segment, a backslash followed by a character `c` other than
`'\0'` takes two iterations that append the backslash and then `c` and end in
the quoted-segment state again, whatever `c` is (the remembered quote
included); and on the six characters quote, `a`, backslash, quote, `b`, quote
the first call returns one Identifier whose lexeme is those six characters and
the second call returns EndOfFile. -/
theorem C7_escape_is_literal (c : Char) (hc : c ≠ NUL) (r lex : List Char)
    (up : LexerState) (q : Char) :
    iteration ⟨c :: r, BACKSLASH⟩ ⟨lex, LexerState.TOKEN_QUOTE, up, q⟩
      = Step.next ⟨r, c⟩ ⟨lex ++ [BACKSLASH], LexerState.ESCAPE, up, q⟩ ∧
    iteration ⟨r, c⟩ ⟨lex ++ [BACKSLASH], LexerState.ESCAPE, up, q⟩
      = Step.next (Lexer.new r) ⟨lex ++ [BACKSLASH] ++ [c], LexerState.TOKEN_QUOTE, up, q⟩ ∧
    NextTokens 2 (Lexer.new [DOUBLEQUOTE, 'a', BACKSLASH, DOUBLEQUOTE, 'b', DOUBLEQUOTE])
      = Trace.tokens
          [⟨[DOUBLEQUOTE, 'a', BACKSLASH, DOUBLEQUOTE, 'b', DOUBLEQUOTE], TokenType.Id⟩,
           ⟨[], TokenType.EndOfFile⟩]
          ⟨[], NUL⟩ := by
  refine ⟨rfl, ?_, by decide⟩
  simp [iteration, appendTo, hc]

/-- C7 with the escaped character being the double quote that opened the
segment: the segment stays open. -/
theorem C7_escape_is_literal_witness :
    DOUBLEQUOTE ≠ NUL ∧
    iteration ⟨['b', DOUBLEQUOTE], DOUBLEQUOTE⟩
        ⟨[DOUBLEQUOTE, 'a'] ++ [BACKSLASH], LexerState.ESCAPE, LexerState.INIT, DOUBLEQUOTE⟩
      = Step.next (Lexer.new ['b', DOUBLEQUOTE])
          ⟨[DOUBLEQUOTE, 'a'] ++ [BACKSLASH] ++ [DOUBLEQUOTE], LexerState.TOKEN_QUOTE,
            LexerState.INIT, DOUBLEQUOTE⟩ :=
  ⟨by decide, (C7_escape_is_literal DOUBLEQUOTE (by decide) ['b', DOUBLEQUOTE]
    [DOUBLEQUOTE, 'a'] LexerState.INIT DOUBLEQUOTE).2.1⟩

/-- C8: for each quote character `q` and every `s` without `q`, backslash or
`'\0'`, the call of `NextToken` on the input `q`, `s` raises
`LexicalException` and returns no token. -/
theorem C8_unterminated_quote_raises (q : Char) (s : List Char)
    (hq : q = SINGLEQUOTE ∨ q = DOUBLEQUOTE)
    (h1 : q ∉ s) (h2 : BACKSLASH ∉ s) (h3 : NUL ∉ s) :
    NextToken (Lexer.new (q :: s))
      = Result.raised (Exception.LexicalException "Symbol double quote expected") := by
  have h : ∀ c ∈ s, quotedChar q c :=
    fun c hc => ⟨fun e => h1 (e ▸ hc), fun e => h2 (e ▸ hc), fun e => h3 (e ▸ hc)⟩
  unfold NextToken
  simp only [new_cons]
  rw [loop_succ, iteration_init_quote q _ hq]
  simp only
  have e : s.length + 2 = 2 + s.length := by omega
  have hl := loop_quote_plain q s [q] [] LexerState.INIT 2 h
  rw [List.append_nil] at hl
  rw [e, hl]
  rfl

/-- C8 on the input double quote, `abc`: the call raises. -/
theorem C8_unterminated_quote_raises_witness :
    NextToken (Lexer.new [DOUBLEQUOTE, 'a', 'b', 'c'])
      = Result.raised (Exception.LexicalException "Symbol double quote expected") :=
  C8_unterminated_quote_raises DOUBLEQUOTE ['a', 'b', 'c'] (Or.inr rfl) (by decide)
    (by decide) (by decide)

/-- C9: for every `s` without `]`, quote character or `'\0'`, the call of
`NextToken` on the input `[`, `s` raises `LexicalException` with the message
`Symbol ] expected`; in the state entered after a quoted list item, any
buffered symbol other than `,` and `]` raises the same exception; and so does
the input `[`, quote, `a`, quote, `x`, `]`, where `x` follows a quoted item. -/
theorem C9_unterminated_list_raises (s : List Char) (h1 : RIGHT_SQUARE_BRACKET ∉ s)
    (h2 : SINGLEQUOTE ∉ s) (h3 : DOUBLEQUOTE ∉ s) (h4 : NUL ∉ s) :
    NextToken (Lexer.new (LEFT_SQUARE_BRACKET :: s))
      = Result.raised (Exception.LexicalException "Symbol ] expected") ∧
    (∀ (lx : Lexer) (lex : List Char) (up : LexerState) (q : Char),
      lx.currentSymbol ≠ ',' → lx.currentSymbol ≠ RIGHT_SQUARE_BRACKET →
      iteration lx ⟨lex, LexerState.END_SQUARE_BRACKET, up, q⟩
        = Step.done (Result.raised (Exception.LexicalException "Symbol ] expected"))) ∧
    NextToken (Lexer.new ['[', DOUBLEQUOTE, 'a', DOUBLEQUOTE, 'x', ']'])
      = Result.raised (Exception.LexicalException "Symbol ] expected") := by
  refine ⟨?_, ?_, by decide⟩
  · unfold NextToken
    simp only [new_cons]
    rw [loop_succ]
    have h0 : iteration ⟨s, LEFT_SQUARE_BRACKET⟩ Locals.init
        = Step.next (Lexer.new s)
            ⟨[LEFT_SQUARE_BRACKET], LexerState.INIT_SQUARE_BRACKET, LexerState.INIT, NUL⟩ := rfl
    rw [h0]
    simp only
    have e : s.length + 2 = 2 + s.length := by omega
    have hl := loop_list_plain s [LEFT_SQUARE_BRACKET] [] LexerState.INIT NUL 2
      (listChar_of_not_mem s h1 h2 h3 h4)
    rw [List.append_nil] at hl
    rw [e, hl]
    rfl
  · intro lx lex up q hc hb
    simp [iteration, endSquareBracket, hc, hb]

/-- C9 on the input `[a,b`: the call raises with `Symbol ] expected`. -/
theorem C9_unterminated_list_raises_witness :
    NextToken (Lexer.new ['[', 'a', ',', 'b'])
      = Result.raised (Exception.LexicalException "Symbol ] expected") :=
  (C9_unterminated_list_raises ['a', ',', 'b'] (by decide) (by decide) (by decide)
    (by decide)).1

/-! ## The end of the input -/

theorem loopInv_init (lx : Lexer) : loopInv lx Locals.init := by
  simp [loopInv, Locals.init]

theorem loopInv_next {lx lx1 : Lexer} {v v1 : Locals}
    (h : iteration lx v = Step.next lx1 v1) (hi : loopInv lx v) : loopInv lx1 v1 := by
  obtain ⟨lex, st, up, q⟩ := v
  obtain ⟨r, c⟩ := lx
  obtain ⟨i1, i2, i3⟩ := hi
  cases st <;> simp only [iteration, appendTo, endSquareBracket] at h
  · -- INIT
    have hl : lex = [] := i1 rfl
    subst hl
    split_ifs at h <;> simp only [Step.next.injEq] at h <;> obtain ⟨rfl, rfl⟩ := h <;>
      simp [loopInv]
    · assumption
    · rename_i hop
      simp only [IsSymbolOp]
      rcases hop with rfl | rfl | rfl | rfl | rfl <;> rfl
  all_goals
    first
    | (split_ifs at h <;>
        (simp only [Step.next.injEq] at h; obtain ⟨rfl, rfl⟩ := h; simp [loopInv]))
    | (split at h <;> exact absurd h (by simp))
    | (exact absurd h (by simp))

theorem isStringOperator_type_ne_eof (l : List Char) :
    (IsStringOperator ⟨l, TokenType.Id⟩).type ≠ TokenType.EndOfFile := by
  unfold IsStringOperator
  split
  · simp
  · split_ifs <;> simp

theorem symbolOpType_ne_eof {c : Char} (h : IsSymbolOp c = true) :
    symbolOpType c ≠ TokenType.EndOfFile := by
  unfold IsSymbolOp at h
  unfold symbolOpType
  split_ifs at h ⊢ <;> simp at h ⊢

/-- An iteration that returns an EndOfFile token leaves `'\0'` buffered. -/
theorem eof_of_iteration_done {lx lx1 : Lexer} {v : Locals} {t : Token}
    (h : iteration lx v = Step.done (Result.returned t lx1)) (hi : loopInv lx v)
    (ht : t.type = TokenType.EndOfFile) : lx1.currentSymbol = NUL ∧ t = Token.eof := by
  obtain ⟨lex, st, up, q⟩ := v
  obtain ⟨r, c⟩ := lx
  obtain ⟨i1, i2, i3⟩ := hi
  cases st <;> simp only [iteration, appendTo, endSquareBracket] at h
  case INIT => split_ifs at h; simp at h
  case TOKEN =>
    split_ifs at h; simp at h
    obtain ⟨rfl, rfl⟩ := h
    exact absurd ht (isStringOperator_type_ne_eof lex)
  case TOKEN_QUOTE => split_ifs at h; simp at h
  case ESCAPE => split_ifs at h; simp at h
  case INIT_SQUARE_BRACKET => split_ifs at h; simp at h
  case END_SQUARE_BRACKET => split_ifs at h; simp at h
  case SYMBOL_OP =>
    obtain ⟨c0, hl, hop⟩ := i2 rfl
    simp only at hl
    subst hl
    simp at h
    obtain ⟨rfl, rfl⟩ := h
    exact absurd ht (symbolOpType_ne_eof hop)
  case EOFILE =>
    simp at h
    obtain ⟨rfl, rfl⟩ := h
    exact ⟨i3 rfl, rfl⟩

theorem eof_of_loop (n : Nat) : ∀ (lx lx1 : Lexer) (v : Locals) (t : Token),
    loop n lx v = Result.returned t lx1 → loopInv lx v → t.type = TokenType.EndOfFile →
    lx1.currentSymbol = NUL ∧ t = Token.eof := by
  induction n with
  | zero => intro lx lx1 v t h; simp [loop] at h
  | succ n ih =>
    intro lx lx1 v t h hi ht
    rw [loop_succ] at h
    cases hs : iteration lx v with
    | next lx2 v2 =>
      rw [hs] at h
      exact ih lx2 lx1 v2 t h (loopInv_next hs hi) ht
    | done r =>
      rw [hs] at h
      simp only at h
      subst h
      exact eof_of_iteration_done hs hi ht

theorem nextTokens_at_eof (r : List Char) (n : Nat) :
    NextTokens n ⟨r, NUL⟩ = Trace.tokens (List.replicate n Token.eof) ⟨r, NUL⟩ := by
  induction n with
  | zero => rfl
  | succ n ih =>
    simp only [NextTokens, nextToken_nul, ih]
    rfl

/-- C10: once a call of `NextToken` has returned a token of type EndOfFile, any
number of further calls on the lexer it left behind return EndOfFile tokens
only and leave the lexer, its buffered symbol included, as it was. -/
theorem C10_end_of_file_is_stable (lx lx1 : Lexer) (t : Token) (n : Nat)
    (h : NextToken lx = Result.returned t lx1) (ht : t.type = TokenType.EndOfFile) :
    NextTokens n lx1 = Trace.tokens (List.replicate n ⟨[], TokenType.EndOfFile⟩) lx1 ∧
    lx1.currentSymbol = NUL := by
  have h1 := (eof_of_loop _ lx lx1 Locals.init t h (loopInv_init lx) ht).1
  obtain ⟨r, c⟩ := lx1
  simp only at h1
  subst h1
  exact ⟨nextTokens_at_eof r n, rfl⟩

/-- C10 on the input of one space: the first call returns EndOfFile, and
three further calls return EndOfFile three times. -/
theorem C10_end_of_file_is_stable_witness :
    NextToken (Lexer.new [' ']) = Result.returned ⟨[], TokenType.EndOfFile⟩ ⟨[], NUL⟩ ∧
    NextTokens 3 ⟨[], NUL⟩
      = Trace.tokens (List.replicate 3 ⟨[], TokenType.EndOfFile⟩) ⟨[], NUL⟩ :=
  ⟨by decide, (C10_end_of_file_is_stable (Lexer.new [' ']) ⟨[], NUL⟩
    ⟨[], TokenType.EndOfFile⟩ 3 (by decide) rfl).1⟩

/-! ## Progress of the loop -/

theorem pending_advance_lt (lx : Lexer) (h : lx.currentSymbol ≠ NUL) :
    lx.advance.pending < lx.pending := by
  obtain ⟨r, c⟩ := lx
  cases r with
  | nil =>
    simp only at h
    simp [Lexer.pending, Lexer.advance, ContentReader.NextSymbol, h]
  | cons d r =>
    simp only [Lexer.pending, Lexer.advance, ContentReader.NextSymbol, List.length_cons]
    simp only at h
    simp only [h, if_false]
    split <;> omega

/-- An iteration that goes round again either consumed a buffered symbol other
than `'\0'` and pulled the next one, or touched nothing and entered `EOFILE`. -/
theorem iteration_next_cases {lx lx1 : Lexer} {v v1 : Locals}
    (h : iteration lx v = Step.next lx1 v1) :
    (lx.currentSymbol ≠ NUL ∧ lx1 = lx.advance) ∨
    (lx1 = lx ∧ v1.currentState = LexerState.EOFILE) := by
  obtain ⟨lex, st, up, q⟩ := v
  obtain ⟨r, c⟩ := lx
  cases st <;> simp only [iteration, appendTo, endSquareBracket] at h
  all_goals
    first
    | (split_ifs at h <;>
        (simp only [Step.next.injEq] at h
         obtain ⟨rfl, rfl⟩ := h
         first
         | (right; exact ⟨rfl, rfl⟩)
         | (left; refine ⟨?_, rfl⟩; intro e; simp only at e; subst e; simp_all <;> done)
         | (left; refine ⟨?_, rfl⟩; intro e; simp only at e; subst e; revert ‹_›; decide)))
    | (split at h <;> exact absurd h (by simp))
    | (exact absurd h (by simp))


theorem iteration_done_ne (lx : Lexer) (v : Locals) :
    iteration lx v ≠ Step.done Result.outOfFuel := by
  obtain ⟨lex, st, up, q⟩ := v
  obtain ⟨r, c⟩ := lx
  cases st <;> simp only [iteration, appendTo, endSquareBracket]
  all_goals
    first
    | (split_ifs <;> simp)
    | (split <;> simp)
    | simp

/-- The loop is left within two iterations more than there are symbols
pending. -/
theorem loop_total (n : Nat) : ∀ (lx : Lexer) (v : Locals), lx.pending + 2 ≤ n →
    loop n lx v ≠ Result.outOfFuel := by
  induction n with
  | zero => intro lx v h; omega
  | succ n ih =>
    intro lx v h
    rw [loop_succ]
    cases hs : iteration lx v with
    | done r =>
      simp only
      intro e
      exact iteration_done_ne lx v (e ▸ hs)
    | next lx1 v1 =>
      simp only
      rcases iteration_next_cases hs with ⟨hc, rfl⟩ | ⟨rfl, hv⟩
      · exact ih _ v1 (by have := pending_advance_lt lx hc; omega)
      · obtain ⟨m, rfl⟩ : ∃ m, n = m + 1 := ⟨n - 1, by omega⟩
        obtain ⟨lex, st, up, q⟩ := v1
        simp only at hv
        subst hv
        simp [loop_succ, iteration]

theorem nextToken_ne_outOfFuel (lx : Lexer) : NextToken lx ≠ Result.outOfFuel := by
  apply loop_total
  unfold Lexer.pending
  split <;> omega

/-- Whatever the loop reaches from the entry state with some budget is what
`NextToken` returns. -/
theorem nextToken_eq_of_loop {m : Nat} {lx : Lexer} {r : Result}
    (h : loop m lx Locals.init = r) (hr : r ≠ Result.outOfFuel) : NextToken lx = r := by
  rcases Nat.le_total m (lx.contentReader.length + 3) with hle | hle
  · exact loop_of_le h hr hle
  · have h2 := loop_of_le (rfl : loop _ lx Locals.init = NextToken lx)
      (nextToken_ne_outOfFuel lx) hle
    rw [h] at h2
    exact h2.symm

/-! ## Skipping whitespace -/

theorem iteration_init_space (c : Char) (r : List Char) (up : LexerState) (q : Char)
    (h : spaceChar c) :
    iteration ⟨r, c⟩ ⟨[], LexerState.INIT, up, q⟩
      = Step.next (Lexer.new r) ⟨[], LexerState.INIT, up, q⟩ := by
  rcases h with rfl | rfl | rfl | rfl <;> rfl

theorem loop_init_space (s : List Char) : ∀ (r : List Char) (up : LexerState) (q : Char)
    (n : Nat), (∀ c ∈ s, spaceChar c) →
    loop (n + s.length) (Lexer.new (s ++ r)) ⟨[], LexerState.INIT, up, q⟩
      = loop n (Lexer.new r) ⟨[], LexerState.INIT, up, q⟩ := by
  induction s with
  | nil => intro r up q n _; rfl
  | cons c s ih =>
    intro r up q n h
    have e : n + (c :: s).length = (n + s.length) + 1 := by simp; omega
    rw [e, loop_succ]
    simp only [List.cons_append, new_cons]
    rw [iteration_init_space c (s ++ r) up q (h c (List.mem_cons_self _ _))]
    exact ih r up q n (fun x hx => h x (List.mem_cons_of_mem _ hx))

/-! ## Whitespace-only input -/

/-- C11: on every input made only of spaces, tabs, CRs and LFs, the empty
input included, the first call of `NextToken` returns the EndOfFile token. -/
theorem C11_whitespace_only_gives_end_of_file (s : List Char) (h : ∀ c ∈ s, spaceChar c) :
    NextToken (Lexer.new s) = Result.returned ⟨[], TokenType.EndOfFile⟩ ⟨[], NUL⟩ := by
  have h1 := loop_init_space s [] LexerState.INIT NUL 2 h
  rw [List.append_nil] at h1
  exact nextToken_eq_of_loop (h1.trans rfl) (by simp)

/-- C11 on the input space, tab, CR, LF. -/
theorem C11_whitespace_only_gives_end_of_file_witness :
    (∀ c ∈ [' ', TAB, CR, LF], spaceChar c) ∧
    NextToken (Lexer.new [' ', TAB, CR, LF])
      = Result.returned ⟨[], TokenType.EndOfFile⟩ ⟨[], NUL⟩ :=
  ⟨by decide, C11_whitespace_only_gives_end_of_file [' ', TAB, CR, LF] (by decide)⟩

/-! ## Operator symbols -/

theorem symbolOp_start {c : Char} (hc : c = '(' ∨ c = ')' ∨ c = '&' ∨ c = '|' ∨ c = '~')
    (r : List Char) :
    iteration ⟨r, c⟩ Locals.init
      = Step.next (Lexer.new r) ⟨[c], LexerState.SYMBOL_OP, LexerState.INIT, NUL⟩ := by
  rcases hc with rfl | rfl | rfl | rfl | rfl <;> rfl

/-- C16: when the first character after any run of whitespace is one of `(`,
`)`, `&`, `|`, `~`, the call returns a token whose lexeme is that one character
and whose type is LeftParenthesis, RightParenthesis, And, Or, Not respectively,
whatever follows; the lexer is left with the next symbol of the input pulled
and buffered. So `&&` gives two And tokens and `~AND` gives Not, then And. -/
theorem C16_operator_symbol_token (ws rest : List Char) (c : Char)
    (hws : ∀ w ∈ ws, spaceChar w)
    (hc : c = '(' ∨ c = ')' ∨ c = '&' ∨ c = '|' ∨ c = '~') :
    NextToken (Lexer.new (ws ++ c :: rest))
      = Result.returned
          ⟨[c], if c = '(' then TokenType.LeftParenthesis
                else if c = ')' then TokenType.RightParenthesis
                else if c = '&' then TokenType.And
                else if c = '|' then TokenType.Or
                else TokenType.Not⟩
          (Lexer.new rest) ∧
    NextTokens 3 (Lexer.new ['&', '&'])
      = Trace.tokens [⟨['&'], TokenType.And⟩, ⟨['&'], TokenType.And⟩,
          ⟨[], TokenType.EndOfFile⟩] ⟨[], NUL⟩ ∧
    NextTokens 3 (Lexer.new ['~', 'A', 'N', 'D'])
      = Trace.tokens [⟨['~'], TokenType.Not⟩, ⟨['A', 'N', 'D'], TokenType.And⟩,
          ⟨[], TokenType.EndOfFile⟩] ⟨[], NUL⟩ := by
  refine ⟨?_, by decide, by decide⟩
  have h1 := loop_init_space ws (c :: rest) LexerState.INIT NUL 2 hws
  apply nextToken_eq_of_loop (m := 2 + ws.length) _ (by simp)
  refine Eq.trans h1 ?_
  rw [loop_succ]
  simp only [new_cons]
  rw [show (⟨[], LexerState.INIT, LexerState.INIT, NUL⟩ : Locals) = Locals.init from rfl,
    symbolOp_start hc rest]
  simp only
  rw [loop_succ]
  rcases hc with rfl | rfl | rfl | rfl | rfl <;> rfl

/-- C16 on the input space, `(`, `x`: LeftParenthesis with `x` buffered. -/
theorem C16_operator_symbol_token_witness :
    NextToken (Lexer.new [' ', '(', 'x'])
      = Result.returned ⟨['('], TokenType.LeftParenthesis⟩ ⟨[], 'x'⟩ :=
  (C16_operator_symbol_token [' '] ['x'] '(' (by decide) (by decide)).1

/-! ## Unterminated escape -/

theorem loop_iterations (k : Nat) : ∀ (lx lx1 : Lexer) (v v1 : Locals) (n : Nat),
    iterations k lx v = some (lx1, v1) → loop (n + k) lx v = loop n lx1 v1 := by
  induction k with
  | zero =>
    intro lx lx1 v v1 n h
    simp only [iterations, Option.some.injEq, Prod.mk.injEq] at h
    obtain ⟨rfl, rfl⟩ := h
    rfl
  | succ k ih =>
    intro lx lx1 v v1 n h
    rw [show n + (k + 1) = (n + k) + 1 from rfl, loop_succ]
    simp only [iterations] at h
    cases hs : iteration lx v with
    | next lx2 v2 => rw [hs] at h; exact ih lx2 lx1 v2 v1 n h
    | done r => rw [hs] at h; exact absurd h (by simp)

/-- C12: whenever the loop of a call of `NextToken` comes to stand in the
quoted-segment state with a backslash buffered and the reader exhausted (a
quoted segment is open and the backslash is the last character of the input),
the call raises `LexicalException` and returns no token. -/
theorem C12_unterminated_escape_raises (lx : Lexer) (lex : List Char) (k : Nat)
    (up : LexerState) (q : Char)
    (h : iterations k lx Locals.init
      = some (⟨[], BACKSLASH⟩, ⟨lex, LexerState.TOKEN_QUOTE, up, q⟩)) :
    NextToken lx
      = Result.raised (Exception.LexicalException "Symbol EOF not expected") := by
  apply nextToken_eq_of_loop (m := 2 + k) _ (by simp)
  rw [loop_iterations k _ _ _ _ 2 h]
  rfl

/-- C12 on the two characters double quote, backslash: after one iteration the
quoted segment is open with the backslash buffered, and the call raises. -/
theorem C12_unterminated_escape_raises_witness :
    iterations 1 (Lexer.new [DOUBLEQUOTE, BACKSLASH]) Locals.init
      = some (⟨[], BACKSLASH⟩,
          ⟨[DOUBLEQUOTE], LexerState.TOKEN_QUOTE, LexerState.INIT, DOUBLEQUOTE⟩) ∧
    NextToken (Lexer.new [DOUBLEQUOTE, BACKSLASH])
      = Result.raised (Exception.LexicalException "Symbol EOF not expected") :=
  ⟨by decide, C12_unterminated_escape_raises (Lexer.new [DOUBLEQUOTE, BACKSLASH]) [DOUBLEQUOTE] 1
    LexerState.INIT DOUBLEQUOTE (by decide)⟩

/-! ## The return state of a quoted segment -/

/-- C13: on the input `[`, quote, `a`, quote, `]`, quote, `b`, quote the call
raises `Symbol ] expected` instead of returning one Identifier: the quote
opened in the bare-word state after the list has closed still finds `upState`
set by the list item, so its closing quote leads to `END_SQUARE_BRACKET`.
Without an earlier quoted list item a quote opened in a bare word does return
to the bare word (`a`, quote, `b`, quote, `c` is one Identifier), and the list
alone is one Identifier. -/
theorem C13_return_state_is_left_over :
    NextToken (Lexer.new ['[', DOUBLEQUOTE, 'a', DOUBLEQUOTE, ']', DOUBLEQUOTE, 'b', DOUBLEQUOTE])
      = Result.raised (Exception.LexicalException "Symbol ] expected") ∧
    NextToken (Lexer.new ['a', DOUBLEQUOTE, 'b', DOUBLEQUOTE, 'c'])
      = Result.returned ⟨['a', DOUBLEQUOTE, 'b', DOUBLEQUOTE, 'c'], TokenType.Id⟩ ⟨[], NUL⟩ ∧
    NextToken (Lexer.new ['[', DOUBLEQUOTE, 'a', DOUBLEQUOTE, ']'])
      = Result.returned ⟨['[', DOUBLEQUOTE, 'a', DOUBLEQUOTE, ']'], TokenType.Id⟩ ⟨[], NUL⟩ := by
  decide

/-! ## Quote delimiters -/

/-- C18: for each quote character `q` and every `s` without `q`, backslash or
`'\0'` (the other quote character allowed), the input `q`, `s`, `q` makes the
first call return one Identifier whose lexeme is the whole input and the second
call return EndOfFile. -/
theorem C18_quote_closes_on_itself (q : Char) (s : List Char)
    (hq : q = SINGLEQUOTE ∨ q = DOUBLEQUOTE)
    (h1 : q ∉ s) (h2 : BACKSLASH ∉ s) (h3 : NUL ∉ s) :
    NextTokens 2 (Lexer.new (q :: (s ++ [q])))
      = Trace.tokens [⟨q :: (s ++ [q]), TokenType.Id⟩, ⟨[], TokenType.EndOfFile⟩] ⟨[], NUL⟩ := by
  have h : ∀ c ∈ s, quotedChar q c :=
    fun c hc => ⟨fun e => h1 (e ▸ hc), fun e => h2 (e ▸ hc), fun e => h3 (e ▸ hc)⟩
  simp only [NextTokens, nextToken_quoted q s hq h, nextToken_nul]
  rfl

/-- C18 on the input double quote, `a`, single quote, `b`, double quote, and
with the two quote characters exchanged. -/
theorem C18_quote_closes_on_itself_witness :
    NextTokens 2 (Lexer.new [DOUBLEQUOTE, 'a', SINGLEQUOTE, 'b', DOUBLEQUOTE])
      = Trace.tokens [⟨[DOUBLEQUOTE, 'a', SINGLEQUOTE, 'b', DOUBLEQUOTE], TokenType.Id⟩,
          ⟨[], TokenType.EndOfFile⟩] ⟨[], NUL⟩ ∧
    NextTokens 2 (Lexer.new [SINGLEQUOTE, 'a', DOUBLEQUOTE, 'b', SINGLEQUOTE])
      = Trace.tokens [⟨[SINGLEQUOTE, 'a', DOUBLEQUOTE, 'b', SINGLEQUOTE], TokenType.Id⟩,
          ⟨[], TokenType.EndOfFile⟩] ⟨[], NUL⟩ :=
  ⟨C18_quote_closes_on_itself DOUBLEQUOTE ['a', SINGLEQUOTE, 'b'] (Or.inr rfl) (by decide)
      (by decide) (by decide),
   C18_quote_closes_on_itself SINGLEQUOTE ['a', DOUBLEQUOTE, 'b'] (Or.inl rfl) (by decide)
      (by decide) (by decide)⟩

/-! ## The kinds of iteration and the shape of returned tokens -/

/-- The three kinds of iteration that go round again: `INIT` discards a
whitespace character, `INIT` enters `EOFILE` on `'\0'` without pulling, or the
buffered symbol, which is not `'\0'`, is appended to the lexeme and the next
symbol is pulled. -/
theorem iteration_next_kind {lx lx1 : Lexer} {v v1 : Locals}
    (h : iteration lx v = Step.next lx1 v1) :
    (v.currentState = LexerState.INIT ∧ spaceChar lx.currentSymbol ∧
      lx1 = lx.advance ∧ v1 = v) ∨
    (v.currentState = LexerState.INIT ∧ lx.currentSymbol = NUL ∧
      lx1 = lx ∧ v1 = { v with currentState := LexerState.EOFILE }) ∨
    (lx.currentSymbol ≠ NUL ∧ lx1 = lx.advance ∧
      v1.lexeme = v.lexeme ++ [lx.currentSymbol] ∧
      v1.currentState ≠ LexerState.INIT ∧ v1.currentState ≠ LexerState.EOFILE) := by
  have hn := iteration_next_cases h
  obtain ⟨lex, st, up, q⟩ := v
  obtain ⟨r, c⟩ := lx
  cases st <;> simp only [iteration, appendTo, endSquareBracket] at h
  all_goals
    first
    | (split_ifs at h <;>
        (simp only [Step.next.injEq] at h
         obtain ⟨rfl, rfl⟩ := h
         first
         | exact Or.inl ⟨rfl, by unfold spaceChar; assumption, rfl, rfl⟩
         | exact Or.inr (Or.inl ⟨rfl, by assumption, rfl, rfl⟩)
         | (refine Or.inr (Or.inr ⟨?_, rfl, rfl, by simp, by simp⟩)
            rcases hn with ⟨hc, -⟩ | ⟨-, hs⟩
            · exact hc
            · exact absurd hs (by simp))))
    | (split at h <;> exact absurd h (by simp))
    | (exact absurd h (by simp))


/-- The three places where an iteration returns a token; none of them touches
the lexer fields. -/
theorem iteration_returned_kind {lx lx1 : Lexer} {v : Locals} {t : Token}
    (h : iteration lx v = Step.done (Result.returned t lx1)) :
    lx1 = lx ∧
    ((v.currentState = LexerState.TOKEN ∧ t = IsStringOperator ⟨v.lexeme, TokenType.Id⟩) ∨
     (v.currentState = LexerState.SYMBOL_OP ∧
        ∃ c0 cs, v.lexeme = c0 :: cs ∧ t = ⟨v.lexeme, symbolOpType c0⟩) ∨
     (v.currentState = LexerState.EOFILE ∧ t = Token.eof)) := by
  obtain ⟨lex, st, up, q⟩ := v
  obtain ⟨r, c⟩ := lx
  cases st <;> simp only [iteration, appendTo, endSquareBracket] at h
  case INIT => split_ifs at h; simp at h
  case TOKEN =>
    split_ifs at h; simp at h
    obtain ⟨rfl, rfl⟩ := h
    exact ⟨rfl, Or.inl ⟨rfl, rfl⟩⟩
  case TOKEN_QUOTE => split_ifs at h; simp at h
  case ESCAPE => split_ifs at h; simp at h
  case INIT_SQUARE_BRACKET => split_ifs at h; simp at h
  case END_SQUARE_BRACKET => split_ifs at h; simp at h
  case SYMBOL_OP =>
    cases lex with
    | nil => simp at h
    | cons c0 cs =>
      simp at h
      obtain ⟨rfl, rfl⟩ := h
      exact ⟨rfl, Or.inr (Or.inl ⟨rfl, c0, cs, rfl, rfl⟩)⟩
  case EOFILE =>
    simp at h
    obtain ⟨rfl, rfl⟩ := h
    exact ⟨rfl, Or.inr (Or.inr ⟨rfl, rfl⟩)⟩

theorem lexemeInv_init : lexemeInv Locals.init := by
  simp [lexemeInv, Locals.init]

theorem lexemeInv_next {lx lx1 : Lexer} {v v1 : Locals}
    (h : iteration lx v = Step.next lx1 v1) (hi : lexemeInv v) : lexemeInv v1 := by
  obtain ⟨i1, i2⟩ := hi
  rcases iteration_next_kind h with ⟨-, -, -, rfl⟩ | ⟨-, -, -, rfl⟩ | ⟨hc, -, hl, -, -⟩
  · exact ⟨i1, i2⟩
  · exact ⟨i1, fun e => absurd e (by simp)⟩
  · rw [lexemeInv, hl]
    refine ⟨?_, by simp⟩
    simp only [List.mem_append, List.mem_singleton, not_or]
    exact ⟨i1, fun e => hc e.symm⟩

theorem returnShape_of_loop (n : Nat) : ∀ (lx lx1 : Lexer) (v : Locals) (t : Token),
    loop n lx v = Result.returned t lx1 → loopInv lx v → lexemeInv v → returnShape t := by
  induction n with
  | zero => intro lx lx1 v t h; simp [loop] at h
  | succ n ih =>
    intro lx lx1 v t h hi hl
    rw [loop_succ] at h
    cases hs : iteration lx v with
    | next lx2 v2 =>
      rw [hs] at h
      exact ih lx2 lx1 v2 t h (loopInv_next hs hi) (lexemeInv_next hs hl)
    | done r =>
      rw [hs] at h
      simp only at h
      subst h
      obtain ⟨-, k⟩ := iteration_returned_kind hs
      rcases k with ⟨hst, rfl⟩ | ⟨hst, c0, cs, hlex, rfl⟩ | ⟨-, rfl⟩
      · exact Or.inl ⟨v.lexeme, hl.2 hst, hl.1, rfl⟩
      · obtain ⟨c, hc, hop⟩ := hi.2.1 hst
        rw [hc] at hlex
        simp only [List.cons.injEq] at hlex
        obtain ⟨rfl, -⟩ := hlex
        exact Or.inr (Or.inl ⟨c, hop, by rw [hc]⟩)
      · exact Or.inr (Or.inr rfl)

/-- Every token `NextToken` returns has one of the three shapes. -/
theorem nextToken_shape {lx lx1 : Lexer} {t : Token}
    (h : NextToken lx = Result.returned t lx1) : returnShape t :=
  returnShape_of_loop _ lx lx1 Locals.init t h (loopInv_init lx) lexemeInv_init

/-! ## Empty and non-empty lexemes -/

/-- C17: every token `NextToken` returns with a type other than EndOfFile has a
non-empty lexeme, and every token it returns with type EndOfFile has an empty
lexeme. -/
theorem C17_lexeme_empty_only_at_end_of_file (lx lx1 : Lexer) (t : Token)
    (h : NextToken lx = Result.returned t lx1) :
    (t.type ≠ TokenType.EndOfFile → t.lexeme ≠ []) ∧
    (t.type = TokenType.EndOfFile → t.lexeme = []) := by
  rcases nextToken_shape h with ⟨lex, hne, -, rfl⟩ | ⟨c, hop, rfl⟩ | rfl
  · rw [isStringOperator_lexeme]
    exact ⟨fun _ => hne, fun e => absurd e (isStringOperator_type_ne_eof lex)⟩
  · exact ⟨fun _ => by simp, fun e => absurd e (symbolOpType_ne_eof hop)⟩
  · exact ⟨fun e => absurd rfl e, fun _ => rfl⟩

/-- C17 on the input `ab`, space: the first call returns an Identifier with
the non-empty lexeme `ab`. -/
theorem C17_lexeme_empty_only_at_end_of_file_witness :
    NextToken (Lexer.new ['a', 'b', ' ']) = Result.returned ⟨['a', 'b'], TokenType.Id⟩ ⟨[], ' '⟩ ∧
    (['a', 'b'] : List Char) ≠ [] :=
  ⟨by decide, (C17_lexeme_empty_only_at_end_of_file (Lexer.new ['a', 'b', ' ']) ⟨[], ' '⟩
    ⟨['a', 'b'], TokenType.Id⟩ (by decide)).1 (by decide)⟩

/-! ## Operator tokens -/

theorem not_delimiter_of_letter {c : Char}
    (h : (65 ≤ c.toNat ∧ c.toNat ≤ 90) ∨ (97 ≤ c.toNat ∧ c.toNat ≤ 122)) :
    c ≠ SINGLEQUOTE ∧ c ≠ DOUBLEQUOTE ∧ c ≠ LEFT_SQUARE_BRACKET ∧ c ≠ RIGHT_SQUARE_BRACKET := by
  refine ⟨?_, ?_, ?_, ?_⟩ <;> intro e <;> rw [e] at h <;> revert h <;> decide

theorem symbolOpType_cases {c : Char} (h : IsSymbolOp c = true) :
    (c = '(' ∧ symbolOpType c = TokenType.LeftParenthesis) ∨
    (c = ')' ∧ symbolOpType c = TokenType.RightParenthesis) ∨
    (c = '&' ∧ symbolOpType c = TokenType.And) ∨
    (c = '|' ∧ symbolOpType c = TokenType.Or) ∨
    (c = '~' ∧ symbolOpType c = TokenType.Not) := by
  unfold IsSymbolOp at h
  split_ifs at h with h1 h2 h3 h4 h5
  · subst h1; exact Or.inl ⟨rfl, rfl⟩
  · subst h2; exact Or.inr (Or.inl ⟨rfl, rfl⟩)
  · subst h3; exact Or.inr (Or.inr (Or.inl ⟨rfl, rfl⟩))
  · subst h4; exact Or.inr (Or.inr (Or.inr (Or.inl ⟨rfl, rfl⟩)))
  · subst h5; exact Or.inr (Or.inr (Or.inr (Or.inr ⟨rfl, rfl⟩)))

/-- A bare word classified as an operator is the keyword after case folding. -/
theorem keyword_of_type (lex : List Char) (h : NUL ∉ lex) :
    ((IsStringOperator ⟨lex, TokenType.Id⟩).type = TokenType.And →
      lex.map tolower = AND.map tolower) ∧
    ((IsStringOperator ⟨lex, TokenType.Id⟩).type = TokenType.Or →
      lex.map tolower = OR.map tolower) ∧
    ((IsStringOperator ⟨lex, TokenType.Id⟩).type = TokenType.Not →
      lex.map tolower = NOT.map tolower) ∧
    ((IsStringOperator ⟨lex, TokenType.Id⟩).type = TokenType.Xor →
      lex.map tolower = XOR.map tolower) := by
  rw [isStringOperator_type lex h]
  refine ⟨?_, ?_, ?_, ?_⟩ <;> intro e <;> split_ifs at e <;> assumption

/-- C15: for every token `NextToken` returns, type And, Or or Not means the
lexeme is the one character `&`, `|` or `~` respectively or equals `AND`, `OR`
or `NOT` respectively after ASCII case folding, type Xor means the lexeme
equals `XOR` after ASCII case folding, and with any of the four types the
lexeme has no quote and no square bracket. -/
theorem C15_operator_tokens (lx lx1 : Lexer) (t : Token)
    (h : NextToken lx = Result.returned t lx1) :
    (t.type = TokenType.And → t.lexeme = ['&'] ∨ t.lexeme.map tolower = AND.map tolower) ∧
    (t.type = TokenType.Or → t.lexeme = ['|'] ∨ t.lexeme.map tolower = OR.map tolower) ∧
    (t.type = TokenType.Not → t.lexeme = ['~'] ∨ t.lexeme.map tolower = NOT.map tolower) ∧
    (t.type = TokenType.Xor → t.lexeme.map tolower = XOR.map tolower) ∧
    (t.type = TokenType.And ∨ t.type = TokenType.Or ∨ t.type = TokenType.Not ∨
        t.type = TokenType.Xor →
      ∀ c ∈ t.lexeme, c ≠ SINGLEQUOTE ∧ c ≠ DOUBLEQUOTE ∧
        c ≠ LEFT_SQUARE_BRACKET ∧ c ≠ RIGHT_SQUARE_BRACKET) := by
  rcases nextToken_shape h with ⟨lex, -, hn, rfl⟩ | ⟨c, hop, rfl⟩ | rfl
  · obtain ⟨k1, k2, k3, k4⟩ := keyword_of_type lex hn
    simp only [isStringOperator_lexeme]
    refine ⟨fun e => Or.inr (k1 e), fun e => Or.inr (k2 e), fun e => Or.inr (k3 e), k4, ?_⟩
    intro e c hc
    apply not_delimiter_of_letter
    rcases e with e | e | e | e
    · exact letter_of_fold lex _ (by decide) (k1 e) c hc
    · exact letter_of_fold lex _ (by decide) (k2 e) c hc
    · exact letter_of_fold lex _ (by decide) (k3 e) c hc
    · exact letter_of_fold lex _ (by decide) (k4 e) c hc
  · rcases symbolOpType_cases hop with ⟨rfl, e⟩ | ⟨rfl, e⟩ | ⟨rfl, e⟩ | ⟨rfl, e⟩ | ⟨rfl, e⟩ <;>
      simp only [e] <;> decide
  · decide

/-- C15 on the input `aNd`: the token has type And and its lexeme folds to
`AND`. -/
theorem C15_operator_tokens_witness :
    NextToken (Lexer.new ['a', 'N', 'd'])
      = Result.returned ⟨['a', 'N', 'd'], TokenType.And⟩ ⟨[], NUL⟩ ∧
    ((['a', 'N', 'd'] : List Char) = ['&'] ∨
      (['a', 'N', 'd'] : List Char).map tolower = AND.map tolower) :=
  ⟨by decide, (C15_operator_tokens (Lexer.new ['a', 'N', 'd']) ⟨[], NUL⟩
    ⟨['a', 'N', 'd'], TokenType.And⟩ (by decide)).1 rfl⟩

/-! ## Pulls, termination and the number of tokens -/

theorem pending_new_le (input : List Char) : (Lexer.new input).pending ≤ input.length := by
  cases input with
  | nil => simp [Lexer.pending]
  | cons c r =>
    simp only [new_cons, Lexer.pending, List.length_cons]
    split <;> omega

/-- Whatever state the loop is in, a returned token leaves a lexer that is the
entry lexer after some number of pulls, with no more symbols pending. -/
theorem pulls_of_loop (n : Nat) : ∀ (lx lx1 : Lexer) (v : Locals) (t : Token),
    loop n lx v = Result.returned t lx1 →
    ∃ k, lx1 = Nat.iterate Lexer.advance k lx ∧ lx1.pending ≤ lx.pending := by
  induction n with
  | zero => intro lx lx1 v t h; simp [loop] at h
  | succ n ih =>
    intro lx lx1 v t h
    rw [loop_succ] at h
    cases hs : iteration lx v with
    | next lx2 v2 =>
      rw [hs] at h
      obtain ⟨k, hk, hp⟩ := ih lx2 lx1 v2 t h
      rcases iteration_next_cases hs with ⟨hc, rfl⟩ | ⟨rfl, -⟩
      · refine ⟨k + 1, ?_, ?_⟩
        · rw [Function.iterate_succ_apply]; exact hk
        · have := pending_advance_lt lx hc; omega
      · exact ⟨k, hk, hp⟩
    | done r =>
      rw [hs] at h
      simp only at h
      subst h
      obtain ⟨rfl, -⟩ := iteration_returned_kind hs
      exact ⟨0, rfl, le_refl _⟩

/-- From the start state, a returned token other than EndOfFile leaves a lexer
that is the entry lexer after at least one pull, with fewer symbols pending. -/
theorem pulls_of_loop_init (n : Nat) : ∀ (lx lx1 : Lexer) (v : Locals) (t : Token),
    loop n lx v = Result.returned t lx1 → v.currentState = LexerState.INIT →
    t.type ≠ TokenType.EndOfFile →
    ∃ k, 0 < k ∧ lx1 = Nat.iterate Lexer.advance k lx ∧ lx1.pending < lx.pending := by
  induction n with
  | zero => intro lx lx1 v t h; simp [loop] at h
  | succ n ih =>
    intro lx lx1 v t h hst ht
    rw [loop_succ] at h
    cases hs : iteration lx v with
    | next lx2 v2 =>
      rw [hs] at h
      simp only at h
      rcases iteration_next_kind hs with ⟨-, hsp, rfl, rfl⟩ | ⟨-, -, rfl, rfl⟩ | ⟨hc, rfl, -, -, -⟩
      · obtain ⟨k, -, hk, hp⟩ := ih _ lx1 v2 t h hst ht
        have hc : lx.currentSymbol ≠ NUL := by
          intro e; rw [e] at hsp; revert hsp; decide
        refine ⟨k + 1, Nat.succ_pos k, ?_, ?_⟩
        · rw [Function.iterate_succ_apply]; exact hk
        · have := pending_advance_lt lx hc; omega
      · exfalso
        cases n with
        | zero => simp [loop] at h
        | succ n =>
          rw [loop_succ] at h
          simp only [iteration] at h
          simp only [Result.returned.injEq] at h
          exact ht (h.1 ▸ rfl)
      · obtain ⟨k, hk, hp⟩ := pulls_of_loop n _ lx1 v2 t h
        refine ⟨k + 1, Nat.succ_pos k, ?_, ?_⟩
        · rw [Function.iterate_succ_apply]; exact hk
        · have := pending_advance_lt lx hc; omega
    | done r =>
      rw [hs] at h
      simp only at h
      subst h
      obtain ⟨-, k⟩ := iteration_returned_kind hs
      rw [hst] at k
      simp at k

theorem properTokens_cons (t : Token) (tr : Trace) :
    (Trace.cons t tr).properTokens
      ≤ tr.properTokens + (if t.type = TokenType.EndOfFile then 0 else 1) := by
  cases tr with
  | tokens ts lx =>
    simp only [Trace.cons, Trace.properTokens, Trace.returned, List.filter_cons]
    split_ifs <;> simp_all
  | raised ts e =>
    simp only [Trace.cons, Trace.properTokens, Trace.returned, List.filter_cons]
    split_ifs <;> simp_all
  | outOfFuel => simp [Trace.cons, Trace.properTokens, Trace.returned]

/-- A run of calls returns no more tokens other than EndOfFile than there are
symbols pending at its start. -/
theorem properTokens_le_pending (m : Nat) : ∀ (lx : Lexer),
    (NextTokens m lx).properTokens ≤ lx.pending := by
  induction m with
  | zero => intro lx; simp [NextTokens, Trace.properTokens, Trace.returned]
  | succ m ih =>
    intro lx
    simp only [NextTokens]
    cases hr : NextToken lx with
    | returned t lx1 =>
      simp only
      have h1 := properTokens_cons t (NextTokens m lx1)
      have h2 := ih lx1
      obtain ⟨_, -, h3⟩ := pulls_of_loop _ lx lx1 Locals.init t hr
      by_cases ht : t.type = TokenType.EndOfFile
      · simp only [ht, if_true] at h1; omega
      · obtain ⟨_, -, -, h4⟩ := pulls_of_loop_init _ lx lx1 Locals.init t hr rfl ht
        simp only [ht, if_false] at h1; omega
    | raised e => simp [Trace.properTokens, Trace.returned]
    | outOfFuel => simp [Trace.properTokens, Trace.returned]


/-- C20: every call of `NextToken` leaves the loop, within three iterations
more than the reader holds characters, and more budget changes nothing; an
iteration that goes round again has either pulled exactly one symbol or pulled
nothing, and then the next iteration returns the EndOfFile token; every other
iteration returns or raises; a call that returns a token other than EndOfFile
has pulled at least one symbol; and any number of calls on an input of `n`
characters returns at most `n` tokens other than EndOfFile, whether the run
ends in EndOfFile or in an exception. -/
theorem C20_progress_and_termination (lx : Lexer) :
    NextToken lx ≠ Result.outOfFuel ∧
    (∀ m, lx.contentReader.length + 3 ≤ m → loop m lx Locals.init = NextToken lx) ∧
    (∀ (v v1 : Locals) (lx1 : Lexer), iteration lx v = Step.next lx1 v1 →
      lx1 = lx.advance ∨
      (lx1 = lx ∧ iteration lx1 v1 = Step.done (Result.returned Token.eof lx1))) ∧
    (∀ v : Locals, iteration lx v ≠ Step.done Result.outOfFuel) ∧
    (∀ (t : Token) (lx1 : Lexer), NextToken lx = Result.returned t lx1 →
      t.type ≠ TokenType.EndOfFile →
      ∃ k, 0 < k ∧ lx1 = Nat.iterate Lexer.advance k lx) ∧
    (∀ (input : List Char) (m : Nat),
      (NextTokens m (Lexer.new input)).properTokens ≤ input.length) := by
  refine ⟨nextToken_ne_outOfFuel lx, ?_, ?_, iteration_done_ne lx, ?_, ?_⟩
  · intro m hm
    exact loop_of_le rfl (nextToken_ne_outOfFuel lx) hm
  · intro v v1 lx1 h
    rcases iteration_next_kind h with ⟨-, -, e, -⟩ | ⟨-, -, rfl, rfl⟩ | ⟨-, e, -, -, -⟩
    · exact Or.inl e
    · exact Or.inr ⟨rfl, rfl⟩
    · exact Or.inl e
  · intro t lx1 h ht
    obtain ⟨k, hk, e, -⟩ := pulls_of_loop_init _ lx lx1 Locals.init t h rfl ht
    exact ⟨k, hk, e⟩
  · intro input m
    exact le_trans (properTokens_le_pending m _) (pending_new_le input)

/-- C20 on the input `a`, space, `b`: the first call returns Identifier `a`,
which is not EndOfFile, and the lexer it leaves is the entry lexer after some
positive number of pulls. -/
theorem C20_progress_and_termination_witness :
    NextToken (Lexer.new ['a', ' ', 'b']) = Result.returned ⟨['a'], TokenType.Id⟩ ⟨['b'], ' '⟩ ∧
    ∃ k, 0 < k ∧ (⟨['b'], ' '⟩ : Lexer) = Nat.iterate Lexer.advance k (Lexer.new ['a', ' ', 'b']) :=
  ⟨by decide, (C20_progress_and_termination (Lexer.new ['a', ' ', 'b'])).2.2.2.2.1
    ⟨['a'], TokenType.Id⟩ ⟨['b'], ' '⟩ (by decide) (by decide)⟩

/-! ## Lexemes as pieces of the input -/

theorem nulFree_new (input : List Char) (h : NUL ∉ input) :
    (Lexer.new input).nulFree ∧ (Lexer.new input).unread = input := by
  cases input with
  | nil => exact ⟨⟨by simp, fun _ => rfl⟩, rfl⟩
  | cons c r =>
    have hc : c ≠ NUL := fun e => h (e ▸ List.mem_cons_self _ _)
    have hr : NUL ∉ r := fun e => h (List.mem_cons_of_mem _ e)
    exact ⟨⟨hr, fun e => absurd e hc⟩, by simp [Lexer.unread, hc]⟩

theorem unread_advance (lx : Lexer) (hw : lx.nulFree) (hc : lx.currentSymbol ≠ NUL) :
    lx.advance.nulFree ∧ lx.unread = lx.currentSymbol :: lx.advance.unread := by
  obtain ⟨r, c⟩ := lx
  obtain ⟨h1, -⟩ := hw
  simp only at h1 hc
  have := nulFree_new r h1
  simp only [advance_eq, Lexer.unread, hc, if_false]
  exact ⟨this.1, by rw [← Lexer.unread, this.2]⟩

theorem eofInv_next {lx lx1 : Lexer} {v v1 : Locals}
    (h : iteration lx v = Step.next lx1 v1) (hi : loopInv lx v) (he : eofInv v) :
    eofInv v1 := by
  rcases iteration_next_kind h with ⟨-, -, -, rfl⟩ | ⟨hst, -, -, rfl⟩ | ⟨-, -, -, -, hs⟩
  · exact he
  · exact fun _ => hi.1 hst
  · exact fun e => absurd e hs

/-- What the loop consumes until it returns a token is a run of whitespace,
discarded in the start state, followed by the rest of the lexeme. -/
theorem consumed_of_loop (n : Nat) : ∀ (lx lx1 : Lexer) (v : Locals) (t : Token),
    loop n lx v = Result.returned t lx1 → lx.nulFree → loopInv lx v → eofInv v →
    lx1.nulFree ∧ ∃ ws, (∀ c ∈ ws, spaceChar c) ∧
      v.lexeme ++ lx.unread = ws ++ t.lexeme ++ lx1.unread := by
  induction n with
  | zero => intro lx lx1 v t h; simp [loop] at h
  | succ n ih =>
    intro lx lx1 v t h hw hi he
    rw [loop_succ] at h
    cases hs : iteration lx v with
    | next lx2 v2 =>
      rw [hs] at h
      simp only at h
      have hi2 := loopInv_next hs hi
      have he2 := eofInv_next hs hi he
      rcases iteration_next_kind hs with ⟨hst, hsp, rfl, rfl⟩ | ⟨-, -, rfl, rfl⟩ |
        ⟨hc, rfl, hl, -, -⟩
      · have hc : lx.currentSymbol ≠ NUL := by
          intro e; rw [e] at hsp; revert hsp; decide
        obtain ⟨hw2, hu⟩ := unread_advance lx hw hc
        obtain ⟨hw1, ws, hws, e⟩ := ih _ lx1 v2 t h hw2 hi2 he2
        refine ⟨hw1, lx.currentSymbol :: ws, ?_, ?_⟩
        · intro c hc
          rcases List.mem_cons.1 hc with rfl | hc
          · exact hsp
          · exact hws c hc
        · rw [hi.1 hst] at e ⊢
          rw [hu]
          simp only [List.nil_append, List.cons_append] at e ⊢
          rw [e]
      · have k := ih _ lx1 _ t h hw hi2 he2
        exact k
      · obtain ⟨hw2, hu⟩ := unread_advance lx hw hc
        obtain ⟨hw1, ws, hws, e⟩ := ih _ lx1 v2 t h hw2 hi2 he2
        refine ⟨hw1, ws, hws, ?_⟩
        rw [hl] at e
        rw [hu, ← e]
        simp
    | done r =>
      rw [hs] at h
      simp only at h
      subst h
      obtain ⟨rfl, k⟩ := iteration_returned_kind hs
      refine ⟨hw, [], by simp, ?_⟩
      rcases k with ⟨-, rfl⟩ | ⟨-, c0, cs, -, rfl⟩ | ⟨hst, rfl⟩
      · simp [isStringOperator_lexeme]
      · simp
      · rw [he hst]; rfl


theorem eofInv_init : eofInv Locals.init := by
  simp [eofInv, Locals.init]

/-- One call: the unread input is a run of whitespace, the lexeme of the
returned token, and what is unread afterwards. -/
theorem consumed_of_nextToken {lx lx1 : Lexer} {t : Token}
    (h : NextToken lx = Result.returned t lx1) (hw : lx.nulFree) :
    lx1.nulFree ∧ ∃ ws, (∀ c ∈ ws, spaceChar c) ∧ lx.unread = ws ++ t.lexeme ++ lx1.unread :=
  consumed_of_loop _ lx lx1 Locals.init t h hw (loopInv_init lx) eofInv_init

theorem cons_eq_tokens {t : Token} {tr : Trace} {ts : List Token} {lx : Lexer}
    (h : Trace.cons t tr = Trace.tokens ts lx) :
    ∃ ts1, ts = t :: ts1 ∧ tr = Trace.tokens ts1 lx := by
  cases tr with
  | tokens ts1 lx1 =>
    simp only [Trace.cons, Trace.tokens.injEq] at h
    obtain ⟨rfl, rfl⟩ := h
    exact ⟨ts1, rfl, rfl⟩
  | raised ts1 e => simp [Trace.cons] at h
  | outOfFuel => simp [Trace.cons] at h

theorem nextTokens_succ_tokens {n : Nat} {lx lx1 : Lexer} {ts : List Token}
    (h : NextTokens (n + 1) lx = Trace.tokens ts lx1) :
    ∃ t lx2 ts1, NextToken lx = Result.returned t lx2 ∧ ts = t :: ts1 ∧
      NextTokens n lx2 = Trace.tokens ts1 lx1 := by
  simp only [NextTokens] at h
  cases hr : NextToken lx with
  | returned t lx2 =>
    rw [hr] at h
    obtain ⟨ts1, e1, e2⟩ := cons_eq_tokens h
    exact ⟨t, lx2, ts1, rfl, e1, e2⟩
  | raised e => rw [hr] at h; simp at h
  | outOfFuel => rw [hr] at h; simp at h

/-- A run of calls without exception: the unread input is made of the lexemes
returned, in order, each after a run of whitespace, and what is unread
afterwards. -/
theorem segments_of_nextTokens (n : Nat) : ∀ (lx lx1 : Lexer) (ts : List Token),
    NextTokens n lx = Trace.tokens ts lx1 → lx.nulFree →
    Segments (ts.map Token.lexeme) lx.unread lx1.unread := by
  induction n with
  | zero =>
    intro lx lx1 ts h _
    simp only [NextTokens, Trace.tokens.injEq] at h
    obtain ⟨rfl, rfl⟩ := h
    rfl
  | succ n ih =>
    intro lx lx1 ts h hw
    obtain ⟨t, lx2, ts1, h1, rfl, h2⟩ := nextTokens_succ_tokens h
    obtain ⟨hw2, ws, hws, e⟩ := consumed_of_nextToken h1 hw
    exact ⟨ws, lx2.unread, hws, e, ih lx2 lx1 ts1 h2 hw2⟩

/-- Once a run of calls has returned an EndOfFile token, `'\0'` is buffered at
its end. -/
theorem nul_buffered_after_eof (n : Nat) : ∀ (lx lx1 : Lexer) (ts : List Token),
    NextTokens n lx = Trace.tokens ts lx1 → (∃ t ∈ ts, t.type = TokenType.EndOfFile) →
    lx1.currentSymbol = NUL := by
  induction n with
  | zero =>
    intro lx lx1 ts h he
    simp only [NextTokens, Trace.tokens.injEq] at h
    obtain ⟨rfl, rfl⟩ := h
    simp at he
  | succ n ih =>
    intro lx lx1 ts h he
    obtain ⟨t, lx2, ts1, h1, rfl, h2⟩ := nextTokens_succ_tokens h
    obtain ⟨t0, ht0, hty⟩ := he
    rcases List.mem_cons.1 ht0 with rfl | hm
    · have hc := (eof_of_loop _ lx lx2 Locals.init t0 h1 (loopInv_init lx) hty).1
      obtain ⟨r, c⟩ := lx2
      simp only at hc
      subst hc
      rw [nextTokens_at_eof] at h2
      simp only [Trace.tokens.injEq] at h2
      rw [← h2.2]
    · exact ih lx2 lx1 ts1 h2 ⟨t0, hm, hty⟩

theorem sublist_of_segments (ls : List (List Char)) : ∀ (a b : List Char),
    Segments ls a b → List.Sublist (ls.flatten ++ b) a := by
  induction ls with
  | nil => intro a b h; simp only [Segments] at h; subst h; simp
  | cons l ls ih =>
    intro a b h
    obtain ⟨ws, mid, -, rfl, hs⟩ := h
    have h1 := ih mid b hs
    simp only [List.flatten_cons, List.append_assoc]
    exact List.Sublist.trans (List.Sublist.append_left h1 l) (List.sublist_append_right ws _)

/-- C14: for every input without `'\0'` on which some number of calls returns
tokens without raising and reaches EndOfFile, the input is made of the lexemes
in the order returned, each preceded by a run of spaces, tabs, CRs and LFs and
nothing else (the last run precedes the empty lexeme of EndOfFile); so the
lexemes are contiguous, ordered, non-overlapping pieces of the input, and their
concatenation is the input with some whitespace characters deleted. -/
theorem C14_lexemes_partition_input (input : List Char) (n : Nat) (ts : List Token)
    (lx1 : Lexer) (hn : NUL ∉ input)
    (h : NextTokens n (Lexer.new input) = Trace.tokens ts lx1)
    (he : ∃ t ∈ ts, t.type = TokenType.EndOfFile) :
    Segments (ts.map Token.lexeme) input [] ∧
    List.Sublist (ts.map Token.lexeme).flatten input := by
  obtain ⟨hw, hu⟩ := nulFree_new input hn
  have h1 := segments_of_nextTokens n _ lx1 ts h hw
  have h2 := nul_buffered_after_eof n _ lx1 ts h he
  rw [hu] at h1
  simp only [Lexer.unread, h2, if_true] at h1
  refine ⟨h1, ?_⟩
  have h3 := sublist_of_segments _ _ _ h1
  simpa using h3

/-- C14 on the input space, `a`, tab, `b`, two spaces, `(`, LF: the lexemes
`a` TAB `b`, `(` and the empty lexeme of EndOfFile make up the input. -/
theorem C14_lexemes_partition_input_witness :
    NUL ∉ [' ', 'a', TAB, 'b', ' ', ' ', '(', LF] ∧
    NextTokens 3 (Lexer.new [' ', 'a', TAB, 'b', ' ', ' ', '(', LF])
      = Trace.tokens [⟨['a', TAB, 'b'], TokenType.Id⟩, ⟨['('], TokenType.LeftParenthesis⟩,
          ⟨[], TokenType.EndOfFile⟩] ⟨[], NUL⟩ ∧
    Segments [['a', TAB, 'b'], ['('], []] [' ', 'a', TAB, 'b', ' ', ' ', '(', LF] [] :=
  ⟨by decide, by decide,
    (C14_lexemes_partition_input [' ', 'a', TAB, 'b', ' ', ' ', '(', LF] 3
      [⟨['a', TAB, 'b'], TokenType.Id⟩, ⟨['('], TokenType.LeftParenthesis⟩,
        ⟨[], TokenType.EndOfFile⟩] ⟨[], NUL⟩ (by decide) (by decide)
      ⟨⟨[], TokenType.EndOfFile⟩, by simp, rfl⟩).1⟩

/-! ## Backslash outside a quoted segment -/

/-- The `TOKEN` state ends the word at an operator symbol, a space or `'\0'`,
whatever the lexeme holds, and leaves the symbol buffered. -/
theorem iteration_token_end (c : Char) (r lex : List Char) (up : LexerState) (q : Char)
    (h : IsSymbolOp c = true ∨ c = ' ' ∨ c = NUL) :
    iteration ⟨r, c⟩ ⟨lex, LexerState.TOKEN, up, q⟩
      = Step.done (Result.returned (IsStringOperator ⟨lex, TokenType.Id⟩) ⟨r, c⟩) := by
  rcases h with h | rfl | rfl
  · rcases symbolOpType_cases h with ⟨rfl, -⟩ | ⟨rfl, -⟩ | ⟨rfl, -⟩ | ⟨rfl, -⟩ | ⟨rfl, -⟩ <;> rfl
  · rfl
  · rfl

/-- A lexeme that holds a backslash is no keyword. -/
theorem isStringOperator_backslash (lex : List Char) (hn : NUL ∉ lex) (hb : BACKSLASH ∈ lex) :
    IsStringOperator ⟨lex, TokenType.Id⟩ = ⟨lex, TokenType.Id⟩ := by
  have h1 := isStringOperator_lexeme ⟨lex, TokenType.Id⟩
  have h2 := isStringOperator_type lex hn
  have nk : ∀ w : List Char, (∀ l ∈ w, 97 ≤ l.toNat ∧ l.toNat ≤ 122) →
      ¬ lex.map tolower = w := by
    intro w hw e
    have := letter_of_fold lex w hw e BACKSLASH hb
    revert this
    decide
  rw [if_neg (nk _ (by decide)), if_neg (nk _ (by decide)), if_neg (nk _ (by decide)),
    if_neg (nk _ (by decide))] at h2
  rcases hT : IsStringOperator ⟨lex, TokenType.Id⟩ with ⟨l, t⟩
  rw [hT] at h1 h2
  simp only at h1 h2
  rw [h1, h2]

theorem not_nul_of_start {c : Char} (h : startChar c) : c ≠ NUL := h.2.2.2.1

theorem not_nul_of_word {c : Char} (h : wordChar c) : c ≠ NUL := h.2.2.2.2

/-- A bare word followed by an operator symbol, a space or the end of the input
is returned whole, classified by `IsStringOperator`, with what follows left
buffered. -/
theorem nextToken_word (c0 : Char) (u tail : List Char) (h0 : startChar c0)
    (hu : ∀ x ∈ u, wordChar x)
    (ht : IsSymbolOp (Lexer.new tail).currentSymbol = true ∨
      (Lexer.new tail).currentSymbol = ' ' ∨ (Lexer.new tail).currentSymbol = NUL) :
    NextToken (Lexer.new (c0 :: (u ++ tail)))
      = Result.returned (IsStringOperator ⟨c0 :: u, TokenType.Id⟩) (Lexer.new tail) := by
  apply nextToken_eq_of_loop (m := (1 + u.length) + 1) _ (by simp)
  rw [loop_succ]
  simp only [new_cons]
  rw [show Locals.init = (⟨[], LexerState.INIT, LexerState.INIT, NUL⟩ : Locals) from rfl,
    iteration_init_start c0 _ _ _ h0]
  simp only
  rw [loop_token_word u [c0] tail LexerState.INIT NUL 1 hu, loop_succ]
  generalize Lexer.new tail = lx at ht ⊢
  obtain ⟨r, c⟩ := lx
  rw [iteration_token_end c r _ _ _ ht]
  rfl

/-- One operator symbol at the head of the input is returned as its token, with
the next symbol pulled and buffered. -/
theorem nextToken_symbolOp (c : Char) (rest : List Char) (hc : IsSymbolOp c = true) :
    NextToken (Lexer.new (c :: rest))
      = Result.returned ⟨[c], symbolOpType c⟩ (Lexer.new rest) := by
  have hc1 : c = '(' ∨ c = ')' ∨ c = '&' ∨ c = '|' ∨ c = '~' := by
    rcases symbolOpType_cases hc with ⟨e, -⟩ | ⟨e, -⟩ | ⟨e, -⟩ | ⟨e, -⟩ | ⟨e, -⟩ <;> simp [e]
  apply nextToken_eq_of_loop (m := 2) _ (by simp)
  rw [loop_succ]
  simp only [new_cons]
  rw [symbolOp_start hc1 rest]
  rfl


/-- Every symbol is a quote character, ends a bare word, or is appended to it. -/
theorem token_symbol_cases (c : Char) :
    c = SINGLEQUOTE ∨ c = DOUBLEQUOTE ∨
    (IsSymbolOp c = true ∨ c = ' ' ∨ c = NUL) ∨ wordChar c := by
  unfold wordChar
  by_cases h1 : c = SINGLEQUOTE
  · exact Or.inl h1
  by_cases h2 : c = DOUBLEQUOTE
  · exact Or.inr (Or.inl h2)
  by_cases h3 : IsSymbolOp c = true
  · exact Or.inr (Or.inr (Or.inl (Or.inl h3)))
  by_cases h4 : c = ' '
  · exact Or.inr (Or.inr (Or.inl (Or.inr (Or.inl h4))))
  by_cases h5 : c = NUL
  · exact Or.inr (Or.inr (Or.inl (Or.inr (Or.inr h5))))
  exact Or.inr (Or.inr (Or.inr ⟨h2, h1, by simpa using h3, h4, h5⟩))

/-- C19: in the start state and in the bare-word state a buffered backslash is
appended to the lexeme and the loop goes on in the bare-word state, as for
every other bare-word character. The symbol buffered after a backslash is
treated as after any lexeme: a quote character opens a quoted segment; an
operator symbol, a space or `'\0'` ends the word and stays buffered; every
other character is appended (and every symbol is of one of these kinds). So a
bare word that holds a backslash anywhere, followed by an operator symbol, a
space or the end of the input, is returned whole as an Identifier with what
follows left buffered, and an operator symbol right after it is returned as
its own token by the next call. Instances: `a`, backslash, `b` is one
Identifier; on `a`, backslash, quote, `b` the quote opens a segment that is
never closed and the call raises; `a`, backslash, space, `b` is two
Identifiers; `a`, backslash, `&`, `b` is Identifier, And, Identifier;
backslash, `(` is Identifier, LeftParenthesis; and `AND`, backslash is an
Identifier. -/
theorem C19_backslash_outside_quotes :
    (∀ (r : List Char) (up : LexerState) (q : Char),
      iteration ⟨r, BACKSLASH⟩ ⟨[], LexerState.INIT, up, q⟩
        = Step.next (Lexer.new r) ⟨[BACKSLASH], LexerState.TOKEN, up, q⟩) ∧
    (∀ (r lex : List Char) (up : LexerState) (q : Char),
      iteration ⟨r, BACKSLASH⟩ ⟨lex, LexerState.TOKEN, up, q⟩
        = Step.next (Lexer.new r) ⟨lex ++ [BACKSLASH], LexerState.TOKEN, up, q⟩) ∧
    (∀ (r lex : List Char) (up : LexerState) (q : Char),
      iteration ⟨r, SINGLEQUOTE⟩ ⟨lex ++ [BACKSLASH], LexerState.TOKEN, up, q⟩
        = Step.next (Lexer.new r)
            ⟨lex ++ [BACKSLASH] ++ [SINGLEQUOTE], LexerState.TOKEN_QUOTE, up, SINGLEQUOTE⟩) ∧
    (∀ (r lex : List Char) (up : LexerState) (q : Char),
      iteration ⟨r, DOUBLEQUOTE⟩ ⟨lex ++ [BACKSLASH], LexerState.TOKEN, up, q⟩
        = Step.next (Lexer.new r)
            ⟨lex ++ [BACKSLASH] ++ [DOUBLEQUOTE], LexerState.TOKEN_QUOTE, up, DOUBLEQUOTE⟩) ∧
    NextTokens 2 (Lexer.new ['a', BACKSLASH, 'b'])
      = Trace.tokens [⟨['a', BACKSLASH, 'b'], TokenType.Id⟩, ⟨[], TokenType.EndOfFile⟩]
          ⟨[], NUL⟩ ∧
    NextToken (Lexer.new ['a', BACKSLASH, DOUBLEQUOTE, 'b'])
      = Result.raised (Exception.LexicalException "Symbol double quote expected") ∧
    NextTokens 2 (Lexer.new ['a', BACKSLASH, DOUBLEQUOTE, 'b', DOUBLEQUOTE])
      = Trace.tokens [⟨['a', BACKSLASH, DOUBLEQUOTE, 'b', DOUBLEQUOTE], TokenType.Id⟩,
          ⟨[], TokenType.EndOfFile⟩] ⟨[], NUL⟩ ∧
    NextTokens 3 (Lexer.new ['a', BACKSLASH, ' ', 'b'])
      = Trace.tokens [⟨['a', BACKSLASH], TokenType.Id⟩, ⟨['b'], TokenType.Id⟩,
          ⟨[], TokenType.EndOfFile⟩] ⟨[], NUL⟩ ∧
    (startChar BACKSLASH ∧ wordChar BACKSLASH) ∧
    (∀ (c : Char) (r lex : List Char) (up : LexerState) (q : Char),
      IsSymbolOp c = true ∨ c = ' ' ∨ c = NUL →
      iteration ⟨r, c⟩ ⟨lex ++ [BACKSLASH], LexerState.TOKEN, up, q⟩
        = Step.done (Result.returned (IsStringOperator ⟨lex ++ [BACKSLASH], TokenType.Id⟩)
            ⟨r, c⟩)) ∧
    (∀ (c : Char) (r lex : List Char) (up : LexerState) (q : Char), wordChar c →
      iteration ⟨r, c⟩ ⟨lex ++ [BACKSLASH], LexerState.TOKEN, up, q⟩
        = Step.next (Lexer.new r) ⟨lex ++ [BACKSLASH] ++ [c], LexerState.TOKEN, up, q⟩) ∧
    (∀ c : Char, c = SINGLEQUOTE ∨ c = DOUBLEQUOTE ∨
      (IsSymbolOp c = true ∨ c = ' ' ∨ c = NUL) ∨ wordChar c) ∧
    (∀ (c0 : Char) (u tail : List Char), startChar c0 → (∀ x ∈ u, wordChar x) →
      BACKSLASH ∈ c0 :: u →
      (IsSymbolOp (Lexer.new tail).currentSymbol = true ∨
        (Lexer.new tail).currentSymbol = ' ' ∨ (Lexer.new tail).currentSymbol = NUL) →
      NextToken (Lexer.new (c0 :: (u ++ tail)))
        = Result.returned ⟨c0 :: u, TokenType.Id⟩ (Lexer.new tail)) ∧
    (∀ (c0 c : Char) (u rest : List Char), startChar c0 → (∀ x ∈ u, wordChar x) →
      BACKSLASH ∈ c0 :: u → IsSymbolOp c = true →
      NextTokens 2 (Lexer.new (c0 :: (u ++ c :: rest)))
        = Trace.tokens [⟨c0 :: u, TokenType.Id⟩, ⟨[c], symbolOpType c⟩] (Lexer.new rest)) ∧
    NextTokens 4 (Lexer.new ['a', BACKSLASH, '&', 'b'])
      = Trace.tokens [⟨['a', BACKSLASH], TokenType.Id⟩, ⟨['&'], TokenType.And⟩,
          ⟨['b'], TokenType.Id⟩, ⟨[], TokenType.EndOfFile⟩] ⟨[], NUL⟩ ∧
    NextTokens 3 (Lexer.new [BACKSLASH, '('])
      = Trace.tokens [⟨[BACKSLASH], TokenType.Id⟩, ⟨['('], TokenType.LeftParenthesis⟩,
          ⟨[], TokenType.EndOfFile⟩] ⟨[], NUL⟩ ∧
    NextTokens 2 (Lexer.new ['A', 'N', 'D', BACKSLASH])
      = Trace.tokens [⟨['A', 'N', 'D', BACKSLASH], TokenType.Id⟩, ⟨[], TokenType.EndOfFile⟩]
          ⟨[], NUL⟩ := by
  have word : ∀ (c0 : Char) (u tail : List Char), startChar c0 → (∀ x ∈ u, wordChar x) →
      BACKSLASH ∈ c0 :: u →
      (IsSymbolOp (Lexer.new tail).currentSymbol = true ∨
        (Lexer.new tail).currentSymbol = ' ' ∨ (Lexer.new tail).currentSymbol = NUL) →
      NextToken (Lexer.new (c0 :: (u ++ tail)))
        = Result.returned ⟨c0 :: u, TokenType.Id⟩ (Lexer.new tail) := by
    intro c0 u tail h0 hu hb ht
    have hn : NUL ∉ c0 :: u := by
      intro e
      rcases List.mem_cons.1 e with e | e
      · exact not_nul_of_start h0 e.symm
      · exact not_nul_of_word (hu _ e) rfl
    rw [nextToken_word c0 u tail h0 hu ht, isStringOperator_backslash _ hn hb]
  refine ⟨fun _ _ _ => rfl, fun _ _ _ _ => rfl, fun _ _ _ _ => rfl, fun _ _ _ _ => rfl,
    by decide, by decide, by decide, by decide, by decide, ?_, ?_, token_symbol_cases,
    word, ?_, by decide, by decide, by decide⟩
  · intro c r lex up q h
    exact iteration_token_end c r _ up q h
  · intro c r lex up q h
    exact iteration_token_word c r _ up q h
  · intro c0 c u rest h0 hu hb hc
    have h1 := word c0 u (c :: rest) h0 hu hb (Or.inl hc)
    simp only [NextTokens]
    rw [h1]
    simp only
    rw [nextToken_symbolOp c rest hc]
    rfl

/-- C19 on the input `a`, backslash, `&`, `b`: the word `a`, backslash is
returned as an Identifier with `&` left buffered, and the next call returns
And. -/
theorem C19_backslash_outside_quotes_witness :
    (startChar 'a' ∧ (∀ x ∈ [BACKSLASH], wordChar x) ∧ BACKSLASH ∈ ['a', BACKSLASH] ∧
      IsSymbolOp '&' = true) ∧
    NextToken (Lexer.new ['a', BACKSLASH, '&', 'b'])
      = Result.returned ⟨['a', BACKSLASH], TokenType.Id⟩ ⟨['b'], '&'⟩ ∧
    NextTokens 2 (Lexer.new ['a', BACKSLASH, '&', 'b'])
      = Trace.tokens [⟨['a', BACKSLASH], TokenType.Id⟩, ⟨['&'], TokenType.And⟩] ⟨[], 'b'⟩ :=
  ⟨by decide,
   C19_backslash_outside_quotes.2.2.2.2.2.2.2.2.2.2.2.2.1 'a' [BACKSLASH] ['&', 'b']
     (by decide) (by decide) (by decide) (Or.inl (by decide)),
   C19_backslash_outside_quotes.2.2.2.2.2.2.2.2.2.2.2.2.2.1 'a' '&' [BACKSLASH] ['b']
     (by decide) (by decide) (by decide) (by decide)⟩

end BooleanParser

/-! ## `Cast::boolean` -/

namespace Cast

open BooleanParser

theorem charAt_zero_cons (c : Char) (cs : List Char) : charAt (c :: cs) 0 = c := rfl

theorem charAt_one_eq_nul (c : Char) (cs : List Char) (h : NUL ∉ cs) :
    charAt (c :: cs) 1 = NUL ↔ cs = [] := by
  cases cs with
  | nil => simp [charAt]
  | cons d ds =>
    have hd : d ≠ NUL := fun e => h (e ▸ List.mem_cons_self _ _)
    simp [charAt, hd]

/-- C21: for a string value without `'\0'`, `Cast::boolean` returns false
exactly when the string is empty, is one of `0`, `f`, `F`, or equals `false`
after ASCII case folding, and true for every other string; for an integer value
it returns whether the value is non-zero; and for a boolean value it returns
that value. -/
theorem C21_boolean_of_value (v : List Char) (h : NUL ∉ v) :
    boolean (MsgPack.STR v)
      = Except.ok (if v = [] ∨ v = ['0'] ∨ v = ['f'] ∨ v = ['F'] ∨
          v.map tolower = FALSE.map tolower then false else true) ∧
    (∀ n : Nat, boolean (MsgPack.POSITIVE_INTEGER n) = Except.ok (decide (n ≠ 0))) ∧
    (∀ i : Int, boolean (MsgPack.NEGATIVE_INTEGER i) = Except.ok (decide (i ≠ 0))) ∧
    (∀ b : Bool, boolean (MsgPack.BOOLEAN b) = Except.ok b) := by
  refine ⟨?_, ?_, ?_, fun _ => rfl⟩
  · cases v with
    | nil => rfl
    | cons c cs =>
      have hc : c ≠ NUL := fun e => h (e ▸ List.mem_cons_self _ _)
      have hcs : NUL ∉ cs := fun e => h (List.mem_cons_of_mem _ e)
      have hf := strcasecmp_eq_zero_iff (c :: cs) FALSE h (by decide)
      simp only [boolean, charAt_zero_cons, hc, if_false, charAt_one_eq_nul c cs hcs, hf]
      by_cases h0 : c = '0' ∨ c = 'f' ∨ c = 'F'
      · simp only [h0, if_true]
        have e : (c :: cs = [] ∨ c :: cs = ['0'] ∨ c :: cs = ['f'] ∨ c :: cs = ['F'] ∨
            (c :: cs).map tolower = FALSE.map tolower) ↔
            (cs = [] ∨ (c :: cs).map tolower = FALSE.map tolower) := by
          constructor
          · rintro (e | e | e | e | e)
            · exact absurd e (by simp)
            · exact Or.inl (List.cons.inj e).2
            · exact Or.inl (List.cons.inj e).2
            · exact Or.inl (List.cons.inj e).2
            · exact Or.inr e
          · rintro (rfl | e)
            · rcases h0 with rfl | rfl | rfl
              · exact Or.inr (Or.inl rfl)
              · exact Or.inr (Or.inr (Or.inl rfl))
              · exact Or.inr (Or.inr (Or.inr (Or.inl rfl)))
            · exact Or.inr (Or.inr (Or.inr (Or.inr e)))
        simp only [e]
        split_ifs <;> rfl
      · simp only [h0, if_false]
        have e : ¬ (c :: cs = [] ∨ c :: cs = ['0'] ∨ c :: cs = ['f'] ∨ c :: cs = ['F'] ∨
            (c :: cs).map tolower = FALSE.map tolower) := by
          rintro (e | e | e | e | e)
          · exact absurd e (by simp)
          · exact h0 (Or.inl (List.cons.inj e).1)
          · exact h0 (Or.inr (Or.inl (List.cons.inj e).1))
          · exact h0 (Or.inr (Or.inr (List.cons.inj e).1))
          · exact h0 (Or.inr (eq_or_upper (l := 'f') (by decide) (fold_head e)))
        simp only [e, if_false]
  · intro n
    by_cases hn : n = 0 <;> simp [boolean, hn]
  · intro i
    by_cases hi : i = 0 <;> simp [boolean, hi]

/-- C21 on the string `FaLsE`: it has no `'\0'`, and the result is false. -/
theorem C21_boolean_of_value_witness :
    NUL ∉ ['F', 'a', 'L', 's', 'E'] ∧
    boolean (MsgPack.STR ['F', 'a', 'L', 's', 'E']) = Except.ok false :=
  ⟨by decide, (C21_boolean_of_value ['F', 'a', 'L', 's', 'E'] (by decide)).1.trans rfl⟩

end Cast
